import Mathlib

/-!
Verification of the PRGScanner dead-code detector (package `scanner`, file
`internal/scanner/scanner.go`, plus `cmd/prgscanner/main.go`).

The Go program scans a directory tree for `.prg` files, extracts
function/procedure declarations with a regular expression, counts lexical
occurrences of each declared name, and reports declarations whose final
usage count is at most 1 as unused.

Shallow embedding conventions:
* strings are `List Char`; file contents are `Option (List Char)` where
  `none` models a file whose `os.ReadFile` fails;
* the Go maps `globalFunctions : map[string]*FunctionDeclaration` and
  `staticFunctions : map[string]map[string]*FunctionDeclaration` are
  association lists keyed exactly like the source (lookup and update are by
  key; iteration order of a Go map is irrelevant to every fact proved here);
* `UsageCount int64` is `Int` (the counter only ever grows by small
  non-negative amounts, so 64-bit wraparound is not modelled);
* the concurrent worker pools of `ProcessDeclarationsConcurrently` /
  `ProcessUsageConcurrently` are modelled as folds over an explicit file
  order; all mutations are per-line/per-file exactly as in the source, so a
  schedule is a permutation of the file list;
* character classification (`unicode.IsLetter`/`IsDigit`, `strings.ToLower`,
  the `(?i)` flag of the declaration regex) is modelled on its ASCII
  fragment, which is exact for ASCII text; non-ASCII code points are treated
  as separators.
-/

set_option maxRecDepth 40000

namespace PRGScanner

/-- Character class used by the tokenizer in `processFileForUsage`:
Go `unicode.IsLetter(r) || unicode.IsDigit(r) || r == '_'` (a token is a
maximal run of such characters; everything else is a separator), restricted
to its ASCII fragment `A-Z a-z 0-9 _`. -/
def isIdentRune (c : Char) : Bool :=
  (65 ≤ c.toNat && c.toNat ≤ 90) || (97 ≤ c.toNat && c.toNat ≤ 122) ||
    (48 ≤ c.toNat && c.toNat ≤ 57) || c.toNat == 95

/-- Character class `[a-zA-Z0-9_]` of the declaration regex `declRegex`
(this class is written in pure ASCII in the source). -/
def isNameChar (c : Char) : Bool :=
  (65 ≤ c.toNat && c.toNat ≤ 90) || (97 ≤ c.toNat && c.toNat ≤ 122) ||
    (48 ≤ c.toNat && c.toNat ≤ 57) || c.toNat == 95

/-- Whitespace class `\s` of Go's regexp package: `[\t\n\f\r ]`. -/
def isSpaceChar (c : Char) : Bool :=
  c.toNat == 32 || c.toNat == 9 || c.toNat == 10 || c.toNat == 12 || c.toNat == 13

/-- Lower-casing of a string, character by character; `Char.toLower` is the
ASCII fragment of Go's `strings.ToLower` / of `(?i)` case folding. -/
def lowerStr (s : List Char) : List Char := s.map Char.toLower

/-- Accumulator worker for `tokenize`: `acc` holds the (reversed) current
token. Mirrors `strings.FieldsFunc(content, fun r => ¬ isIdentRune r)`. -/
def tokenizeAux : List Char → List Char → List (List Char)
  | [], acc => match acc with | [] => [] | _ :: _ => [acc.reverse]
  | c :: cs, acc =>
    if isIdentRune c then tokenizeAux cs (c :: acc)
    else match acc with
      | [] => tokenizeAux cs []
      | _ :: _ => acc.reverse :: tokenizeAux cs []

/-- Tokenization of `processFileForUsage`: split the content into maximal
runs of identifier characters (Go `strings.FieldsFunc` with the negation of
`isIdentRune` as the separator predicate). -/
def tokenize (s : List Char) : List (List Char) := tokenizeAux s []

/-- Go `strings.Split(content, "\n")` as used by
`processFileForDeclarations` (note `strings.Split` of the empty string
yields one empty piece). -/
def splitLines : List Char → List (List Char)
  | [] => [[]]
  | c :: cs =>
    if c = '\n' then [] :: splitLines cs
    else match splitLines cs with
      | [] => [[c]]
      | l :: ls => (c :: l) :: ls

/-- Keyword `static` of `declRegex`, lower case. -/
def staticChars : List Char := ['s', 't', 'a', 't', 'i', 'c']

/-- Keyword `function` of `declRegex`, lower case. -/
def functionChars : List Char := ['f', 'u', 'n', 'c', 't', 'i', 'o', 'n']

/-- Keyword `procedure` of `declRegex`, lower case. -/
def procedureChars : List Char := ['p', 'r', 'o', 'c', 'e', 'd', 'u', 'r', 'e']

/-- Case-insensitive literal match of a (lower-case) keyword at the head of
`s`; returns the remainder after the keyword. Models matching the literals
`static`/`function`/`procedure` under the regex flag `(?i)`. -/
def stripKeyword : List Char → List Char → Option (List Char)
  | [], s => some s
  | _ :: _, [] => none
  | k :: ks, c :: cs => if Char.toLower c = k then stripKeyword ks cs else none

/-- Matches `kw` followed by `\s+` (at least one whitespace, consumed
greedily), as in the two `\s+` positions of `declRegex`. -/
def stripKeywordSpace (kw : List Char) (s : List Char) : Option (List Char) :=
  match stripKeyword kw s with
  | none => none
  | some r =>
    match r with
    | [] => none
    | c :: _ => if isSpaceChar c then some (r.dropWhile isSpaceChar) else none

/-- Matches `kw` then `\s+` then a name `[a-zA-Z0-9_]+` (maximal, nonempty);
returns the captured name. -/
def matchCoreKw (kw : List Char) (s : List Char) : Option (List Char) :=
  match stripKeywordSpace kw s with
  | none => none
  | some r =>
    match r.takeWhile isNameChar with
    | [] => none
    | c :: cs => some (c :: cs)

/-- Matches `(function|procedure)\s+([a-zA-Z0-9_]+)`, trying the
alternatives in the regex's order. -/
def matchCore (s : List Char) : Option (List Char) :=
  match matchCoreKw functionChars s with
  | some nm => some nm
  | none => matchCoreKw procedureChars s

/-- Matching after the leading `^\s*`: try the optional `static\s+` group
first (falling back to the group being empty, as the backtracking regex
engine would), then the keyword, whitespace, and the captured name. -/
def matchDeclAux (s : List Char) : Option (Bool × List Char) :=
  match stripKeywordSpace staticChars s with
  | some r =>
    match matchCore r with
    | some nm => some (true, nm)
    | none =>
      match matchCore s with
      | some nm => some (false, nm)
      | none => none
  | none =>
    match matchCore s with
    | some nm => some (false, nm)
    | none => none

/-- One application of
`declRegex = (?i)^\s*(static\s+)?(function|procedure)\s+([a-zA-Z0-9_]+)`
to a line (`FindStringSubmatch`): skip leading whitespace, then match the
optional `static\s+` group, the keyword, whitespace, and the captured name.
Returns `(static-group-present, captured-name)`. -/
def matchDecl (line : List Char) : Option (Bool × List Char) :=
  matchDeclAux (line.dropWhile isSpaceChar)

/-- Go struct `FunctionDeclaration` (field `UsageCount int64` starts at 1 to
account for the declaration itself). -/
structure FunctionDeclaration where
  Name : List Char
  File : List Char
  Static : Bool
  UsageCount : Int
deriving DecidableEq

/-- A located source file: its full path and its content; `content = none`
models a file whose `os.ReadFile` fails in both phases. -/
structure PRGFile where
  path : List Char
  content : Option (List Char)
deriving DecidableEq

/-- Lookup in an association list keyed by strings; models Go map lookup. -/
def alookup {β : Type} (k : List Char) : List (List Char × β) → Option β
  | [] => none
  | (k', v) :: rest => if k' = k then some v else alookup k rest

/-- Update-or-insert in an association list: if `k` is present apply `f` to
its value, otherwise append `(k, v₀)`. Models a Go map write. -/
def aupdate {β : Type} (k : List Char) (f : β → β) (v₀ : β) :
    List (List Char × β) → List (List Char × β)
  | [] => [(k, v₀)]
  | (k', v) :: rest =>
    if k' = k then (k', f v) :: rest else (k', v) :: aupdate k f v₀ rest

/-- The two shared maps of the scanner: `globalFunctions` keyed by declared
name, and `staticFunctions` keyed by declaring file then by name. -/
structure SymbolTable where
  globalFunctions : List (List Char × FunctionDeclaration)
  staticFunctions : List (List Char × List (List Char × FunctionDeclaration))
deriving DecidableEq

/-- Both maps start empty (`make(map[...])`). -/
def emptyTable : SymbolTable := ⟨[], []⟩

/-- Effect of one line on the symbol table inside
`processFileForDeclarations`: if `declRegex` matches, either overwrite the
static entry `staticFunctions[file][name]` with a fresh declaration
(UsageCount 1), or create the global entry `globalFunctions[name]`
(UsageCount 1) / increment its UsageCount if it already exists. -/
def applyDeclLine (file : List Char) (st : SymbolTable) (line : List Char) : SymbolTable :=
  match matchDecl line with
  | none => st
  | some (isStatic, name) =>
    if isStatic then
      let fresh : FunctionDeclaration := ⟨name, file, true, 1⟩
      let upd := fun m => aupdate name (fun _ => fresh) fresh m
      { st with staticFunctions := aupdate file upd [(name, fresh)] st.staticFunctions }
    else
      let fresh : FunctionDeclaration := ⟨name, file, false, 1⟩
      let inc := fun gf : FunctionDeclaration => { gf with UsageCount := gf.UsageCount + 1 }
      { st with globalFunctions := aupdate name inc fresh st.globalFunctions }

/-- Go `processFileForDeclarations`: read the file (on failure print and
return, leaving the table untouched), split into lines, and process each
line in order. -/
def processFileForDeclarations (f : PRGFile) (st : SymbolTable) : SymbolTable :=
  match f.content with
  | none => st
  | some content => (splitLines content).foldl (applyDeclLine f.path) st

/-- Occurrence count of token `t` in a token list; models the frequency map
`freq` of `processFileForUsage` (a missing key reads as 0). -/
def countTok (tokens : List (List Char)) (t : List Char) : Nat := tokens.count t

/-- Frequency of token `t` in a file content, after lower-casing the whole
content, exactly as `processFileForUsage` builds `freq`. -/
def fileFreq (content : List Char) (t : List Char) : Nat :=
  countTok (tokenize (lowerStr content)) t

/-- Update of one global declaration by `processFileForUsage` on the file at
`path` with the given content: look up the lower-cased name in the
frequency table, subtract one occurrence when this is the declaring file
(and the count is positive), and add the remainder to `UsageCount` if it is
still positive. -/
def updateGlobalUsage (path : List Char) (content : List Char) (d : FunctionDeclaration) :
    FunctionDeclaration :=
  let count := fileFreq content (lowerStr d.Name)
  let count' := if path = d.File ∧ 0 < count then count - 1 else count
  if 0 < count' then { d with UsageCount := d.UsageCount + (count' : Int) } else d

/-- Update of one static declaration of the processed file itself (the
static branch of `processFileForUsage` always runs on the declaring file,
so the discount is unconditional on the path). -/
def updateStaticUsage (content : List Char) (d : FunctionDeclaration) : FunctionDeclaration :=
  let count := fileFreq content (lowerStr d.Name)
  let count' := if 0 < count then count - 1 else count
  if 0 < count' then { d with UsageCount := d.UsageCount + (count' : Int) } else d

/-- Go `processFileForUsage`: read the file (on failure print and return),
lower-case and tokenize it, then update every global declaration and the
static declarations stored under this very file. -/
def processFileForUsage (f : PRGFile) (st : SymbolTable) : SymbolTable :=
  match f.content with
  | none => st
  | some content =>
    { globalFunctions :=
        st.globalFunctions.map (fun p => (p.1, updateGlobalUsage f.path content p.2)),
      staticFunctions :=
        st.staticFunctions.map (fun p =>
          if p.1 = f.path then (p.1, p.2.map (fun q => (q.1, updateStaticUsage content q.2)))
          else p) }

/-- Declaration phase (`ProcessDeclarationsConcurrently`) in a given worker
schedule: fold `processFileForDeclarations` over the files in that order,
starting from the empty table. -/
def runDeclarations (files : List PRGFile) : SymbolTable :=
  files.foldl (fun st f => processFileForDeclarations f st) emptyTable

/-- Usage phase (`ProcessUsageConcurrently`) in a given worker schedule. -/
def runUsage (files : List PRGFile) (st : SymbolTable) : SymbolTable :=
  files.foldl (fun st f => processFileForUsage f st) st

/-- The two-phase pipeline with an explicit schedule for each phase. -/
def scanRun (declOrder usageOrder : List PRGFile) : SymbolTable :=
  runUsage usageOrder (runDeclarations declOrder)

/-- The two-phase pipeline in the given file order. -/
def scan (files : List PRGFile) : SymbolTable := scanRun files files

/-- Go `GetUnusedDeclarations`: the `(Name, File)` pairs (struct
`DeclarationInfo`) of every global, respectively static, declaration whose
final `UsageCount` is at most 1. For statics the reported file is the outer
map key, exactly as in the source. -/
def GetUnusedDeclarations (st : SymbolTable) :
    List (List Char × List Char) × List (List Char × List Char) :=
  (st.globalFunctions.filterMap
      (fun p => if p.2.UsageCount ≤ 1 then some (p.2.Name, p.2.File) else none),
   st.staticFunctions.flatMap (fun fp =>
      fp.2.filterMap (fun p => if p.2.UsageCount ≤ 1 then some (p.2.Name, fp.1) else none)))

/-- Go struct `Statistics`. `TotalProcessingTime` (a `time.Duration`, i.e.
an `int64` nanosecond count) is carried through unchanged; the two
percentages, `float64` in the source, are modelled as exact rationals. -/
structure Statistics where
  TotalGlobal : Nat
  UnusedGlobal : Nat
  TotalStatic : Nat
  UnusedStatic : Nat
  TotalProcessingTime : Int
  GlobalUsagePercentage : ℚ
  StaticUsagePercentage : ℚ
deriving DecidableEq

/-- Go `CalculateStatistics`: totals and unused counts over both maps, and
`used/total*100` percentages guarded to 0 when the total is 0. -/
def CalculateStatistics (st : SymbolTable) (totalProcessingTime : Int) : Statistics :=
  let totalGlobal := st.globalFunctions.length
  let unusedGlobalCount := (st.globalFunctions.filter (fun p => p.2.UsageCount ≤ 1)).length
  let totalStatic := (st.staticFunctions.map (fun fp => fp.2.length)).sum
  let unusedStaticCount :=
    (st.staticFunctions.map (fun fp => (fp.2.filter (fun p => p.2.UsageCount ≤ 1)).length)).sum
  let globalUsed : Int := (totalGlobal : Int) - (unusedGlobalCount : Int)
  let staticUsed : Int := (totalStatic : Int) - (unusedStaticCount : Int)
  let globalUsagePercentage : ℚ :=
    if 0 < totalGlobal then (globalUsed : ℚ) / (totalGlobal : ℚ) * 100 else 0
  let staticUsagePercentage : ℚ :=
    if 0 < totalStatic then (staticUsed : ℚ) / (totalStatic : ℚ) * 100 else 0
  ⟨totalGlobal, unusedGlobalCount, totalStatic, unusedStaticCount, totalProcessingTime,
   globalUsagePercentage, staticUsagePercentage⟩

mutual
/-- Filesystem tree for the locator: a file carries its base name and its
content (`none` = unreadable file), a directory its base name and its
children (`none` = a directory `WalkDir` fails to read). -/
inductive FSTree where
  | file : List Char → Option (List Char) → FSTree
  | dir : List Char → Option FSList → FSTree
inductive FSList where
  | nil : FSList
  | cons : FSTree → FSList → FSList
end

/-- Base name of a filesystem entry (`d.Name()`). -/
def FSTree.name : FSTree → List Char
  | .file n _ => n
  | .dir n _ => n

/-- The recognized extension, lower case. -/
def prgSuffix : List Char := ['.', 'p', 'r', 'g']

/-- Go `strings.HasSuffix(strings.ToLower(d.Name()), ".prg")`. -/
def hasPRGSuffix (nm : List Char) : Bool := prgSuffix.isSuffixOf (lowerStr nm)

mutual
/-- Go `SearchPRGFiles`'s `filepath.WalkDir` walk over one entry rooted at
`path`: a non-directory is collected (with its content, which the phases
will later read) when its name has the `.prg` suffix case-insensitively; an
unreadable directory makes the walk return that error (the callback
propagates every walk error), aborting the rest of the traversal. -/
def walkEntry (path : List Char) : FSTree → Except (List Char) (List PRGFile)
  | .file nm content => .ok (if hasPRGSuffix nm then [⟨path, content⟩] else [])
  | .dir _ none => .error path
  | .dir _ (some es) => walkChildren path es
def walkChildren (path : List Char) : FSList → Except (List Char) (List PRGFile)
  | .nil => .ok []
  | .cons e rest =>
    match walkEntry (path ++ '/' :: FSTree.name e) e with
    | .error err => .error err
    | .ok l =>
      match walkChildren path rest with
      | .error err => .error err
      | .ok l2 => .ok (l ++ l2)
end

/-- Go `SearchPRGFiles`: an inaccessible root (`root = none`, the callback's
first invocation receiving an error) yields that error; otherwise walk the
tree. -/
def SearchPRGFiles (rootPath : List Char) (root : Option FSTree) :
    Except (List Char) (List PRGFile) :=
  match root with
  | none => .error rootPath
  | some t => walkEntry rootPath t

mutual
/-- Spec-side reference for the locator's output ("the complete set of file
paths under the root whose name ends case-insensitively with the recognized
extension, following all subdirectories"), written from the spec's words to
compare with `walkEntry`: collect the paths of all non-directory entries
with the suffix, descending into every directory. -/
def specPRGPaths (path : List Char) : FSTree → List (List Char)
  | .file nm _ => if hasPRGSuffix nm then [path] else []
  | .dir _ none => []
  | .dir _ (some es) => specPRGPathsChildren path es
def specPRGPathsChildren (path : List Char) : FSList → List (List Char)
  | .nil => []
  | .cons e rest => specPRGPaths (path ++ '/' :: FSTree.name e) e ++ specPRGPathsChildren path rest
end

mutual
/-- Does every directory of the tree have readable entries? (The locator's
traversal succeeds exactly on such trees.) -/
def treeReadable : FSTree → Bool
  | .file _ _ => true
  | .dir _ none => false
  | .dir _ (some es) => childrenReadable es
def childrenReadable : FSList → Bool
  | .nil => true
  | .cons e rest => treeReadable e && childrenReadable rest
end

/-- Go `main`: locate the files (a traversal error is fatal via
`log.Fatalf`, before either phase runs), then run the declaration phase,
the usage phase, the statistics and the unused-symbol extraction. The
elapsed wall-clock duration is not modelled and is passed as 0. -/
def runScanner (rootPath : List Char) (root : Option FSTree) :
    Except (List Char)
      (SymbolTable × (List (List Char × List Char) × List (List Char × List Char)) × Statistics) :=
  match SearchPRGFiles rootPath root with
  | .error e => .error e
  | .ok files =>
    let st := scan files
    .ok (st, GetUnusedDeclarations st, CalculateStatistics st 0)

/-! ### Concrete example files (for instantiating the general theorems) -/

/-- A file globally declaring `Foo`. -/
def fooA : PRGFile := ⟨(r"a.prg").toList, some ((r"function Foo").toList)⟩

/-- A file globally declaring `FOO` (same name up to letter case). -/
def fooB : PRGFile := ⟨(r"b.prg").toList, some ((r"function FOO").toList)⟩

/-- A file globally declaring `Alpha`. -/
def exA : PRGFile := ⟨(r"a.prg").toList, some ((r"function Alpha").toList)⟩

/-- A file with a static declaration of `Beta`. -/
def exB : PRGFile := ⟨(r"b.prg").toList, some ((r"static procedure Beta").toList)⟩

/-! ### Character-class lemmas -/

theorem toNat_toLower (c : Char) :
    (Char.toLower c).toNat = if 65 ≤ c.toNat ∧ c.toNat ≤ 90 then c.toNat + 32 else c.toNat := by
  unfold Char.toLower
  split
  case isTrue h =>
    rw [if_pos (And.intro h.1 h.2)]
    have hv : Nat.isValidChar (c.toNat + 32) := Or.inl (by omega)
    rw [Char.ofNat, dif_pos hv]
    show (Char.ofNatAux _ _).toNat = _
    unfold Char.ofNatAux
    simp [Char.toNat, UInt32.toNat]
  case isFalse h =>
    rw [if_neg (by omega)]

theorem isIdentRune_iff (c : Char) :
    isIdentRune c = true ↔
      (65 ≤ c.toNat ∧ c.toNat ≤ 90) ∨ (97 ≤ c.toNat ∧ c.toNat ≤ 122) ∨
        (48 ≤ c.toNat ∧ c.toNat ≤ 57) ∨ c.toNat = 95 := by
  simp only [isIdentRune, Bool.or_eq_true, Bool.and_eq_true, decide_eq_true_eq, beq_iff_eq]
  omega

theorem isNameChar_eq_isIdentRune : isNameChar = isIdentRune := rfl

theorem isSpaceChar_iff (c : Char) :
    isSpaceChar c = true ↔
      c.toNat = 32 ∨ c.toNat = 9 ∨ c.toNat = 10 ∨ c.toNat = 12 ∨ c.toNat = 13 := by
  simp only [isSpaceChar, Bool.or_eq_true, beq_iff_eq]
  omega

theorem isIdentRune_congr_toNat {c d : Char} (h : c.toNat = d.toNat) :
    isIdentRune c = isIdentRune d := by
  simp [isIdentRune, h]

theorem isSpaceChar_congr_toNat {c d : Char} (h : c.toNat = d.toNat) :
    isSpaceChar c = isSpaceChar d := by
  simp [isSpaceChar, h]

theorem isIdentRune_toLower (c : Char) : isIdentRune (Char.toLower c) = isIdentRune c := by
  have h := toNat_toLower c
  by_cases hc : 65 ≤ c.toNat ∧ c.toNat ≤ 90
  · rw [if_pos hc] at h
    have e1 : isIdentRune (Char.toLower c) = true := by rw [isIdentRune_iff]; omega
    have e2 : isIdentRune c = true := by rw [isIdentRune_iff]; omega
    rw [e1, e2]
  · rw [if_neg hc] at h
    exact isIdentRune_congr_toNat h

theorem isSpaceChar_toLower (c : Char) : isSpaceChar (Char.toLower c) = isSpaceChar c := by
  have h := toNat_toLower c
  by_cases hc : 65 ≤ c.toNat ∧ c.toNat ≤ 90
  · rw [if_pos hc] at h
    have e1 : isSpaceChar (Char.toLower c) = false := by
      cases hb : isSpaceChar (Char.toLower c)
      · rfl
      · rw [isSpaceChar_iff] at hb; omega
    have e2 : isSpaceChar c = false := by
      cases hb : isSpaceChar c
      · rfl
      · rw [isSpaceChar_iff] at hb; omega
    rw [e1, e2]
  · rw [if_neg hc] at h
    exact isSpaceChar_congr_toNat h

theorem not_isIdentRune_of_isSpaceChar {c : Char} (h : isSpaceChar c = true) :
    isIdentRune c = false := by
  rw [isSpaceChar_iff] at h
  cases hb : isIdentRune c
  · rfl
  · rw [isIdentRune_iff] at hb; omega

theorem not_isSpaceChar_of_isNameChar {c : Char} (h : isNameChar c = true) :
    isSpaceChar c = false := by
  rw [isNameChar_eq_isIdentRune, isIdentRune_iff] at h
  cases hb : isSpaceChar c
  · rfl
  · rw [isSpaceChar_iff] at hb; omega

/-! ### Tokenizer lemmas -/

theorem tokenizeAux_all_ident {t : List Char} (ht : ∀ c ∈ t, isIdentRune c = true) :
    ∀ (rest acc : List Char), tokenizeAux (t ++ rest) acc = tokenizeAux rest (t.reverse ++ acc) := by
  induction t with
  | nil => intro rest acc; simp
  | cons c cs ih =>
    intro rest acc
    have hc : isIdentRune c = true := ht c (List.mem_cons_self c cs)
    have step : tokenizeAux ((c :: cs) ++ rest) acc = tokenizeAux (cs ++ rest) (c :: acc) := by
      simp [tokenizeAux, hc]
    rw [step, ih (fun d hd => ht d (List.mem_cons_of_mem c hd)) rest (c :: acc)]
    simp

theorem tokenizeAux_sep {c : Char} (hc : isIdentRune c = false) (xs : List Char) :
    ∀ (ys acc : List Char),
      tokenizeAux (xs ++ c :: ys) acc = tokenizeAux (xs ++ [c]) acc ++ tokenize ys := by
  induction xs with
  | nil =>
    intro ys acc
    cases acc with
    | nil => simp [tokenizeAux, tokenize, hc]
    | cons a as => simp [tokenizeAux, tokenize, hc]
  | cons x xs ih =>
    intro ys acc
    by_cases hx : isIdentRune x = true
    · have s1 : tokenizeAux ((x :: xs) ++ c :: ys) acc = tokenizeAux (xs ++ c :: ys) (x :: acc) := by
        simp [tokenizeAux, hx]
      have s2 : tokenizeAux ((x :: xs) ++ [c]) acc = tokenizeAux (xs ++ [c]) (x :: acc) := by
        simp [tokenizeAux, hx]
      rw [s1, s2, ih ys (x :: acc)]
    · rw [Bool.not_eq_true] at hx
      cases acc with
      | nil =>
        have s1 : tokenizeAux ((x :: xs) ++ c :: ys) [] = tokenizeAux (xs ++ c :: ys) [] := by
          simp [tokenizeAux, hx]
        have s2 : tokenizeAux ((x :: xs) ++ [c]) [] = tokenizeAux (xs ++ [c]) [] := by
          simp [tokenizeAux, hx]
        rw [s1, s2, ih ys []]
      | cons a as =>
        have s1 : tokenizeAux ((x :: xs) ++ c :: ys) (a :: as)
            = (a :: as).reverse :: tokenizeAux (xs ++ c :: ys) [] := by
          simp [tokenizeAux, hx]
        have s2 : tokenizeAux ((x :: xs) ++ [c]) (a :: as)
            = (a :: as).reverse :: tokenizeAux (xs ++ [c]) [] := by
          simp [tokenizeAux, hx]
        rw [s1, s2, ih ys []]
        simp

theorem token_mem_tokenize {t : List Char} (hne : t ≠ []) (ht : ∀ c ∈ t, isIdentRune c = true)
    {a b : List Char}
    (ha : a = [] ∨ ∃ a' s, a = a' ++ [s] ∧ isIdentRune s = false)
    (hb : b = [] ∨ ∃ d b', b = d :: b' ∧ isIdentRune d = false) :
    t ∈ tokenize (a ++ t ++ b) := by
  have base : t ∈ tokenize (t ++ b) := by
    unfold tokenize
    rw [tokenizeAux_all_ident ht b []]
    rcases hb with rfl | ⟨d, b', rfl, hd⟩
    · have step : tokenizeAux [] (t.reverse ++ []) = [t] := by
        cases hr : t.reverse with
        | nil => exact absurd (by simpa using congrArg List.reverse hr) hne
        | cons u us =>
          have ht' : t = (u :: us).reverse := by
            have h2 := congrArg List.reverse hr
            simpa using h2
          rw [ht']
          simp [tokenizeAux]
      rw [step]
      simp
    · have step : tokenizeAux (d :: b') (t.reverse ++ []) = t :: tokenizeAux b' [] := by
        cases hr : t.reverse with
        | nil => exact absurd (by simpa using congrArg List.reverse hr) hne
        | cons u us =>
          have ht' : t = (u :: us).reverse := by
            have h2 := congrArg List.reverse hr
            simpa using h2
          rw [ht']
          simp [tokenizeAux, hd]
      rw [step]
      exact List.mem_cons_self _ _
  rcases ha with rfl | ⟨a', s, rfl, hs⟩
  · simpa using base
  · have hre : (a' ++ [s]) ++ t ++ b = a' ++ s :: (t ++ b) := by simp
    rw [hre]
    unfold tokenize
    rw [tokenizeAux_sep hs a' (t ++ b) []]
    exact List.mem_append_right _ base

theorem tokenizeAux_lower (s : List Char) :
    ∀ acc : List Char,
      tokenizeAux (lowerStr s) (lowerStr acc) = (tokenizeAux s acc).map lowerStr := by
  induction s with
  | nil =>
    intro acc
    cases acc with
    | nil => simp [lowerStr, tokenizeAux]
    | cons a as => simp [lowerStr, tokenizeAux]
  | cons c cs ih =>
    intro acc
    by_cases hc : isIdentRune c = true
    · have hcl : isIdentRune (Char.toLower c) = true := by rw [isIdentRune_toLower]; exact hc
      have s1 : tokenizeAux (lowerStr (c :: cs)) (lowerStr acc)
          = tokenizeAux (lowerStr cs) (lowerStr (c :: acc)) := by
        simp [lowerStr, tokenizeAux, hcl]
      rw [s1, ih (c :: acc)]
      simp [tokenizeAux, hc]
    · rw [Bool.not_eq_true] at hc
      have hcl : isIdentRune (Char.toLower c) = false := by rw [isIdentRune_toLower]; exact hc
      cases acc with
      | nil =>
        have s1 : tokenizeAux (lowerStr (c :: cs)) (lowerStr [])
            = tokenizeAux (lowerStr cs) (lowerStr []) := by
          simp [lowerStr, tokenizeAux, hcl]
        rw [s1, ih []]
        simp [tokenizeAux, hc]
      | cons a as =>
        have s1 : tokenizeAux (lowerStr (c :: cs)) (lowerStr (a :: as))
            = (lowerStr (a :: as)).reverse :: tokenizeAux (lowerStr cs) (lowerStr []) := by
          simp [lowerStr, tokenizeAux, hcl]
        rw [s1, ih []]
        simp [tokenizeAux, hc, lowerStr]

theorem tokenize_lowerStr (s : List Char) :
    tokenize (lowerStr s) = (tokenize s).map lowerStr := by
  have hx := tokenizeAux_lower s []
  simpa [tokenize, lowerStr] using hx

/-! ### splitLines lemmas -/

theorem splitLines_ne_nil (s : List Char) : splitLines s ≠ [] := by
  cases s with
  | nil => simp [splitLines]
  | cons c cs =>
    simp only [splitLines]
    by_cases h : c = '\n'
    · simp [h]
    · simp only [h, if_false]
      cases splitLines cs <;> simp

theorem splitLines_head {s h : List Char} {t : List (List Char)}
    (hs : splitLines s = h :: t) :
    ∃ S, s = h ++ S ∧ (S = [] ∨ ∃ S', S = '\n' :: S') := by
  induction s generalizing h t with
  | nil =>
    simp only [splitLines, List.cons.injEq] at hs
    exact ⟨[], by simp [← hs.1], Or.inl rfl⟩
  | cons c cs ih =>
    simp only [splitLines] at hs
    by_cases hc : c = '\n'
    · rw [if_pos hc] at hs
      simp only [List.cons.injEq] at hs
      exact ⟨c :: cs, by simp [← hs.1], Or.inr ⟨cs, by rw [hc]⟩⟩
    · rw [if_neg hc] at hs
      cases hcs : splitLines cs with
      | nil => exact absurd hcs (splitLines_ne_nil cs)
      | cons h0 t0 =>
        rw [hcs] at hs
        simp only [List.cons.injEq] at hs
        obtain ⟨S, hS, hcond⟩ := ih hcs
        refine ⟨S, ?_, hcond⟩
        rw [← hs.1]
        simp [hS]

theorem splitLines_tail {s l : List Char} (h : l ∈ (splitLines s).tail) :
    ∃ P S, s = P ++ l ++ S ∧ (∃ P', P = P' ++ ['\n']) ∧ (S = [] ∨ ∃ S', S = '\n' :: S') := by
  induction s generalizing l with
  | nil => simp [splitLines] at h
  | cons c cs ih =>
    simp only [splitLines] at h
    by_cases hc : c = '\n'
    · rw [if_pos hc] at h
      simp only [List.tail_cons] at h
      cases hcs : splitLines cs with
      | nil => exact absurd hcs (splitLines_ne_nil cs)
      | cons h0 t0 =>
        rw [hcs] at h
        rcases List.mem_cons.mp h with rfl | hmem
        · obtain ⟨S, hS, hcond⟩ := splitLines_head hcs
          refine ⟨['\n'], S, ?_, ⟨[], rfl⟩, hcond⟩
          rw [hc]
          simp [hS]
        · obtain ⟨P, S, hPS, ⟨P', hP'⟩, hcond⟩ := ih (l := l) (by rw [hcs, List.tail_cons]; exact hmem)
          exact ⟨c :: P, S, by simp [hPS], ⟨c :: P', by simp [hP']⟩, hcond⟩
    · rw [if_neg hc] at h
      cases hcs : splitLines cs with
      | nil => exact absurd hcs (splitLines_ne_nil cs)
      | cons h0 t0 =>
        rw [hcs] at h
        simp only [List.tail_cons] at h
        obtain ⟨P, S, hPS, ⟨P', hP'⟩, hcond⟩ := ih (l := l) (by rw [hcs]; simpa using h)
        exact ⟨c :: P, S, by simp [hPS], ⟨c :: P', by simp [hP']⟩, hcond⟩

theorem mem_splitLines {s l : List Char} (h : l ∈ splitLines s) :
    ∃ P S, s = P ++ l ++ S ∧ (P = [] ∨ ∃ P', P = P' ++ ['\n']) ∧
      (S = [] ∨ ∃ S', S = '\n' :: S') := by
  cases hs : splitLines s with
  | nil => exact absurd hs (splitLines_ne_nil s)
  | cons h0 t0 =>
    rw [hs] at h
    rcases List.mem_cons.mp h with rfl | hmem
    · obtain ⟨S, hS, hcond⟩ := splitLines_head hs
      exact ⟨[], S, by simp [hS], Or.inl rfl, hcond⟩
    · obtain ⟨P, S, hPS, hP, hcond⟩ := splitLines_tail (s := s) (l := l) (by rw [hs]; simpa using hmem)
      exact ⟨P, S, hPS, Or.inr hP, hcond⟩

/-! ### Declarative characterization of the declaration regex -/

/-- All characters of `s` are regex whitespace. -/
def SpaceRun (s : List Char) : Prop := ∀ c ∈ s, isSpaceChar c = true

/-- The string `s` spells the (lower-case) keyword `kw` case-insensitively. -/
def KeywordCI (kw s : List Char) : Prop := s.map Char.toLower = kw

/-- The string is a nonempty run of name characters `[a-zA-Z0-9_]`. -/
def NameRun (s : List Char) : Prop := s ≠ [] ∧ ∀ c ∈ s, isNameChar c = true

/-- The string does not begin with a name character (so a name run ending
right before it is maximal). -/
def NoNameHead : List Char → Prop
  | [] => True
  | c :: _ => isNameChar c = false

/-- The optional `static\s+` group: absent, or the keyword followed by at
least one whitespace. -/
def StaticPart : Bool → List Char → Prop
  | false, s => s = []
  | true, s => ∃ sw sp, s = sw ++ sp ∧ KeywordCI staticChars sw ∧ sp ≠ [] ∧ SpaceRun sp

/-- Declarative reading of the spec's matching rule: ignoring leading
whitespace, the line starts with an optional case-insensitive `static`
keyword followed by whitespace, then case-insensitive `function` or
`procedure`, then whitespace, then a maximal nonempty name of ASCII
letters, digits, or underscores, which is the captured name. -/
def DeclShape (line : List Char) (b : Bool) (nm : List Char) : Prop :=
  ∃ ws stat kw sp rest,
    line = ws ++ stat ++ kw ++ sp ++ nm ++ rest ∧
    SpaceRun ws ∧ StaticPart b stat ∧
    (KeywordCI functionChars kw ∨ KeywordCI procedureChars kw) ∧
    sp ≠ [] ∧ SpaceRun sp ∧ NameRun nm ∧ NoNameHead rest

theorem dropWhile_head_false {α : Type} {p : α → Bool} {l : List α} {d : α} {r : List α}
    (h : l.dropWhile p = d :: r) : p d = false := by
  induction l with
  | nil => simp [List.dropWhile] at h
  | cons x xs ih =>
    rw [List.dropWhile_cons] at h
    by_cases hx : p x = true
    · rw [hx] at h; simp at h; exact ih h
    · rw [Bool.not_eq_true] at hx
      rw [hx] at h
      simp at h
      rw [← h.1]
      exact hx

theorem dropWhile_append_all {α : Type} {p : α → Bool} {sp x : List α}
    (hsp : ∀ c ∈ sp, p c = true)
    (hx : x = [] ∨ ∃ d x', x = d :: x' ∧ p d = false) :
    (sp ++ x).dropWhile p = x := by
  induction sp with
  | nil =>
    rcases hx with rfl | ⟨d, x', rfl, hd⟩
    · simp
    · simp [List.dropWhile_cons, hd]
  | cons c cs ih =>
    have hc : p c = true := hsp c (List.mem_cons_self c cs)
    rw [List.cons_append, List.dropWhile_cons, hc]
    simp only [if_true]
    exact ih (fun d hd => hsp d (List.mem_cons_of_mem c hd))

theorem takeWhile_append_all {α : Type} {p : α → Bool} {nm x : List α}
    (hnm : ∀ c ∈ nm, p c = true)
    (hx : x = [] ∨ ∃ d x', x = d :: x' ∧ p d = false) :
    (nm ++ x).takeWhile p = nm := by
  induction nm with
  | nil =>
    rcases hx with rfl | ⟨d, x', rfl, hd⟩
    · simp
    · simp [List.takeWhile_cons, hd]
  | cons c cs ih =>
    have hc : p c = true := hnm c (List.mem_cons_self c cs)
    rw [List.cons_append, List.takeWhile_cons, hc]
    simp only [if_true]
    rw [ih (fun d hd => hnm d (List.mem_cons_of_mem c hd))]

theorem stripKeyword_some {kw s r : List Char} (h : stripKeyword kw s = some r) :
    ∃ w, s = w ++ r ∧ KeywordCI kw w := by
  induction kw generalizing s with
  | nil =>
    simp only [stripKeyword, Option.some.injEq] at h
    exact ⟨[], by simp [h], by simp [KeywordCI]⟩
  | cons k ks ih =>
    cases s with
    | nil => simp [stripKeyword] at h
    | cons c cs =>
      simp only [stripKeyword] at h
      by_cases hc : Char.toLower c = k
      · rw [if_pos hc] at h
        obtain ⟨w, hw, hkw⟩ := ih h
        refine ⟨c :: w, by simp [hw], ?_⟩
        unfold KeywordCI at hkw ⊢
        rw [List.map_cons, hc, hkw]
      · rw [if_neg hc] at h
        exact absurd h (by simp)

theorem stripKeyword_complete {kw w : List Char} (h : KeywordCI kw w) (r : List Char) :
    stripKeyword kw (w ++ r) = some r := by
  induction w generalizing kw with
  | nil =>
    have hk : kw = [] := by simpa [KeywordCI] using h.symm
    subst hk
    simp [stripKeyword]
  | cons c cs ih =>
    unfold KeywordCI at h
    rw [List.map_cons] at h
    subst h
    simp only [List.cons_append, stripKeyword, if_pos rfl]
    exact ih rfl

theorem stripKeywordSpace_some {kw s r : List Char} (h : stripKeywordSpace kw s = some r) :
    ∃ w sp, s = w ++ sp ++ r ∧ KeywordCI kw w ∧ sp ≠ [] ∧ SpaceRun sp ∧
      (r = [] ∨ ∃ d r', r = d :: r' ∧ isSpaceChar d = false) := by
  unfold stripKeywordSpace at h
  cases h0 : stripKeyword kw s with
  | none => rw [h0] at h; exact absurd h (by simp)
  | some r0 =>
    rw [h0] at h
    cases r0 with
    | nil => exact absurd h (by simp)
    | cons c rr =>
      have h2 : (if isSpaceChar c = true then some ((c :: rr).dropWhile isSpaceChar)
          else none) = some r := h
      by_cases hc : isSpaceChar c = true
      · rw [if_pos hc] at h2
        simp only [Option.some.injEq] at h2
        obtain ⟨w, hw, hkw⟩ := stripKeyword_some h0
        refine ⟨w, (c :: rr).takeWhile isSpaceChar, ?_, hkw, ?_, ?_, ?_⟩
        · rw [hw, ← h2]
          rw [List.append_assoc, List.takeWhile_append_dropWhile]
        · rw [List.takeWhile_cons, hc]
          simp
        · intro d hd
          exact List.mem_takeWhile_imp hd
        · rw [← h2]
          cases hdw : (c :: rr).dropWhile isSpaceChar with
          | nil => exact Or.inl rfl
          | cons d r' => exact Or.inr ⟨d, r', rfl, dropWhile_head_false hdw⟩
      · rw [if_neg hc] at h2
        exact absurd h2 (by simp)

theorem stripKeywordSpace_complete {kw w sp x : List Char} (hkw : KeywordCI kw w)
    (hne : sp ≠ []) (hsp : SpaceRun sp)
    (hx : x = [] ∨ ∃ d x', x = d :: x' ∧ isSpaceChar d = false) :
    stripKeywordSpace kw (w ++ sp ++ x) = some x := by
  unfold stripKeywordSpace
  rw [List.append_assoc, stripKeyword_complete hkw (sp ++ x)]
  cases sp with
  | nil => exact absurd rfl hne
  | cons c sp' =>
    have hc : isSpaceChar c = true := hsp c (List.mem_cons_self c sp')
    simp only [List.cons_append, if_pos hc]
    rw [← List.cons_append]
    rw [dropWhile_append_all hsp hx]

theorem matchCoreKw_some {kw s nm : List Char} (h : matchCoreKw kw s = some nm) :
    ∃ w sp rest, s = w ++ sp ++ nm ++ rest ∧ KeywordCI kw w ∧ sp ≠ [] ∧ SpaceRun sp ∧
      NameRun nm ∧ NoNameHead rest := by
  unfold matchCoreKw at h
  cases h0 : stripKeywordSpace kw s with
  | none => rw [h0] at h; exact absurd h (by simp)
  | some r =>
    rw [h0] at h
    have h2 : (match r.takeWhile isNameChar with
        | [] => none
        | c :: cs => some (c :: cs)) = some nm := h
    cases htw : r.takeWhile isNameChar with
    | nil => rw [htw] at h2; exact absurd h2 (by simp)
    | cons c cs =>
      rw [htw] at h2
      simp only [Option.some.injEq] at h2
      obtain ⟨w, sp, hws, hkw, hne, hsp, _⟩ := stripKeywordSpace_some h0
      have hr : r = nm ++ r.dropWhile isNameChar := by
        conv_lhs => rw [← List.takeWhile_append_dropWhile (p := isNameChar) (l := r)]
        rw [htw, h2]
      refine ⟨w, sp, r.dropWhile isNameChar, ?_, hkw, hne, hsp, ?_, ?_⟩
      · rw [hws]
        conv_rhs => rw [List.append_assoc (w ++ sp) nm, ← hr]
      · constructor
        · rw [← h2]; simp
        · intro d hd
          rw [← h2, ← htw] at hd
          exact List.mem_takeWhile_imp hd
      · cases hdw : r.dropWhile isNameChar with
        | nil => exact trivial
        | cons d r' => exact dropWhile_head_false hdw

theorem matchCoreKw_complete {kw w sp nm rest : List Char} (hkw : KeywordCI kw w)
    (hne : sp ≠ []) (hsp : SpaceRun sp) (hnm : NameRun nm) (hrest : NoNameHead rest) :
    matchCoreKw kw (w ++ sp ++ nm ++ rest) = some nm := by
  unfold matchCoreKw
  have hx : nm ++ rest = [] ∨ ∃ d x', nm ++ rest = d :: x' ∧ isSpaceChar d = false := by
    cases hhd : nm with
    | nil => exact absurd hhd hnm.1
    | cons c cs =>
      refine Or.inr ⟨c, cs ++ rest, by simp, ?_⟩
      exact not_isSpaceChar_of_isNameChar (hnm.2 c (hhd ▸ List.mem_cons_self c cs))
  have h1 : stripKeywordSpace kw (w ++ sp ++ (nm ++ rest)) = some (nm ++ rest) :=
    stripKeywordSpace_complete hkw hne hsp hx
  rw [show w ++ sp ++ nm ++ rest = w ++ sp ++ (nm ++ rest) by simp] at *
  rw [h1]
  have hrx : rest = [] ∨ ∃ d x', rest = d :: x' ∧ isNameChar d = false := by
    cases hr : rest with
    | nil => exact Or.inl rfl
    | cons d r' =>
      refine Or.inr ⟨d, r', rfl, ?_⟩
      have hv := hrest
      rw [hr] at hv
      exact hv
  show (match List.takeWhile isNameChar (nm ++ rest) with
      | [] => none
      | c :: cs => some (c :: cs)) = some nm
  rw [takeWhile_append_all hnm.2 hrx]
  cases hh : nm with
  | nil => exact absurd hh hnm.1
  | cons c cs => simp


theorem stripKeyword_cons_ne {k : Char} {ks : List Char} {c : Char} {cs : List Char}
    (h : ¬ Char.toLower c = k) : stripKeyword (k :: ks) (c :: cs) = none := by
  simp [stripKeyword, h]

theorem matchCoreKw_none_of_head {k : Char} {ks : List Char} {c : Char} {cs : List Char}
    (h : ¬ Char.toLower c = k) : matchCoreKw (k :: ks) (c :: cs) = none := by
  have h1 : stripKeywordSpace (k :: ks) (c :: cs) = none := by
    unfold stripKeywordSpace
    rw [stripKeyword_cons_ne h]
  unfold matchCoreKw
  rw [h1]

theorem keywordCI_head {k : Char} {ks : List Char} {w : List Char}
    (hk : KeywordCI (k :: ks) w) :
    ∃ c w', w = c :: w' ∧ Char.toLower c = k ∧ KeywordCI ks w' := by
  cases w with
  | nil => simp [KeywordCI] at hk
  | cons c w' =>
    unfold KeywordCI at hk
    rw [List.map_cons] at hk
    injection hk with h1 h2
    exact ⟨c, w', rfl, h1, h2⟩

theorem not_space_head_of_keyword {k : Char} {ks : List Char} {w : List Char}
    (hk : KeywordCI (k :: ks) w) (hks : isSpaceChar k = false) :
    ∃ c w', w = c :: w' ∧ isSpaceChar c = false := by
  obtain ⟨c, w', rfl, hc, _⟩ := keywordCI_head hk
  refine ⟨c, w', rfl, ?_⟩
  have hl := isSpaceChar_toLower c
  rw [hc] at hl
  rw [← hl]
  exact hks

theorem matchCore_some {s nm : List Char} (h : matchCore s = some nm) :
    ∃ w sp rest, s = w ++ sp ++ nm ++ rest ∧
      (KeywordCI functionChars w ∨ KeywordCI procedureChars w) ∧
      sp ≠ [] ∧ SpaceRun sp ∧ NameRun nm ∧ NoNameHead rest := by
  unfold matchCore at h
  cases h0 : matchCoreKw functionChars s with
  | some nm0 =>
    rw [h0] at h
    simp only [Option.some.injEq] at h
    subst h
    obtain ⟨w, sp, rest, h1, h2, h3, h4, h5, h6⟩ := matchCoreKw_some h0
    exact ⟨w, sp, rest, h1, Or.inl h2, h3, h4, h5, h6⟩
  | none =>
    rw [h0] at h
    obtain ⟨w, sp, rest, h1, h2, h3, h4, h5, h6⟩ := matchCoreKw_some h
    exact ⟨w, sp, rest, h1, Or.inr h2, h3, h4, h5, h6⟩

theorem matchCore_complete {w sp nm rest : List Char}
    (hkw : KeywordCI functionChars w ∨ KeywordCI procedureChars w)
    (hne : sp ≠ []) (hsp : SpaceRun sp) (hnm : NameRun nm) (hrest : NoNameHead rest) :
    matchCore (w ++ sp ++ nm ++ rest) = some nm := by
  unfold matchCore
  rcases hkw with hf | hp
  · rw [matchCoreKw_complete hf hne hsp hnm hrest]
  · have hp6 : KeywordCI ('p' :: ['r', 'o', 'c', 'e', 'd', 'u', 'r', 'e']) w := hp
    obtain ⟨c, w', rfl, hc, _⟩ := keywordCI_head hp6
    have hsh : (c :: w') ++ sp ++ nm ++ rest = c :: (w' ++ sp ++ nm ++ rest) := by simp
    rw [hsh]
    have hnf : matchCoreKw functionChars (c :: (w' ++ sp ++ nm ++ rest)) = none :=
      matchCoreKw_none_of_head (by rw [hc]; decide)
    rw [hnf]
    rw [← hsh]
    exact matchCoreKw_complete hp hne hsp hnm hrest

theorem stripKeywordSpace_static_none {c : Char} {cs : List Char}
    (h : ¬ Char.toLower c = 's') : stripKeywordSpace staticChars (c :: cs) = none := by
  have h1 : stripKeyword staticChars (c :: cs) = none := by
    simp only [staticChars]
    exact stripKeyword_cons_ne h
  unfold stripKeywordSpace
  rw [h1]

theorem matchDeclAux_shape {s0 : List Char} {b : Bool} {nm : List Char}
    (h : matchDeclAux s0 = some (b, nm)) :
    ∃ stat w sp rest, s0 = stat ++ w ++ sp ++ nm ++ rest ∧ StaticPart b stat ∧
      (KeywordCI functionChars w ∨ KeywordCI procedureChars w) ∧
      sp ≠ [] ∧ SpaceRun sp ∧ NameRun nm ∧ NoNameHead rest := by
  unfold matchDeclAux at h
  cases hst : stripKeywordSpace staticChars s0 with
  | some r =>
    rw [hst] at h
    have h2 : (match matchCore r with
        | some nm => some (true, nm)
        | none =>
          match matchCore s0 with
          | some nm => some (false, nm)
          | none => none) = some (b, nm) := h
    cases hcr : matchCore r with
    | some nm0 =>
      rw [hcr] at h2
      simp only [Option.some.injEq, Prod.mk.injEq] at h2
      obtain ⟨hb, hn⟩ := h2
      subst hb
      subst hn
      obtain ⟨wst, sp1, hs0eq, hkwst, hne1, hsp1, _⟩ := stripKeywordSpace_some hst
      obtain ⟨w, sp, rest, hreq, hkw, hne, hsp, hname, hrest⟩ := matchCore_some hcr
      refine ⟨wst ++ sp1, w, sp, rest, ?_, ⟨wst, sp1, rfl, hkwst, hne1, hsp1⟩,
        hkw, hne, hsp, hname, hrest⟩
      rw [hs0eq, hreq]
      simp
    | none =>
      rw [hcr] at h2
      cases hc2 : matchCore s0 with
      | some nm0 =>
        rw [hc2] at h2
        simp only [Option.some.injEq, Prod.mk.injEq] at h2
        obtain ⟨hb, hn⟩ := h2
        subst hb
        subst hn
        obtain ⟨w, sp, rest, hreq, hkw, hne, hsp, hname, hrest⟩ := matchCore_some hc2
        refine ⟨[], w, sp, rest, ?_, rfl, hkw, hne, hsp, hname, hrest⟩
        rw [hreq]
        simp
      | none =>
        rw [hc2] at h2
        exact absurd h2 (by simp)
  | none =>
    rw [hst] at h
    have h2 : (match matchCore s0 with
        | some nm => some (false, nm)
        | none => none) = some (b, nm) := h
    cases hc2 : matchCore s0 with
    | some nm0 =>
      rw [hc2] at h2
      simp only [Option.some.injEq, Prod.mk.injEq] at h2
      obtain ⟨hb, hn⟩ := h2
      subst hb
      subst hn
      obtain ⟨w, sp, rest, hreq, hkw, hne, hsp, hname, hrest⟩ := matchCore_some hc2
      refine ⟨[], w, sp, rest, ?_, rfl, hkw, hne, hsp, hname, hrest⟩
      rw [hreq]
      simp
    | none =>
      rw [hc2] at h2
      exact absurd h2 (by simp)

theorem matchDeclAux_complete {stat w sp nm rest : List Char} {b : Bool}
    (hstat : StaticPart b stat)
    (hkw : KeywordCI functionChars w ∨ KeywordCI procedureChars w)
    (hne : sp ≠ []) (hsp : SpaceRun sp) (hnm : NameRun nm) (hrest : NoNameHead rest) :
    matchDeclAux (stat ++ w ++ sp ++ nm ++ rest) = some (b, nm) := by
  have hkwhead : ∃ c w', w = c :: w' ∧ (Char.toLower c = 'f' ∨ Char.toLower c = 'p') := by
    rcases hkw with hf | hp
    · obtain ⟨c, w', rfl, hc, _⟩ := keywordCI_head (show KeywordCI ('f' :: _) w from hf)
      exact ⟨c, w', rfl, Or.inl hc⟩
    · obtain ⟨c, w', rfl, hc, _⟩ := keywordCI_head (show KeywordCI ('p' :: _) w from hp)
      exact ⟨c, w', rfl, Or.inr hc⟩
  obtain ⟨c, w', hw, hcfp⟩ := hkwhead
  cases b with
  | true =>
    obtain ⟨sw, sp1, hstateq, hkwst, hne1, hsp1⟩ := hstat
    subst hstateq
    unfold matchDeclAux
    have hxhead : w ++ sp ++ nm ++ rest = [] ∨
        ∃ d x', w ++ sp ++ nm ++ rest = d :: x' ∧ isSpaceChar d = false := by
      refine Or.inr ⟨c, w' ++ sp ++ nm ++ rest, by rw [hw]; simp, ?_⟩
      have hl := isSpaceChar_toLower c
      rcases hcfp with hc | hc <;> rw [hc] at hl <;> rw [← hl] <;> decide
    have hst : stripKeywordSpace staticChars ((sw ++ sp1) ++ w ++ sp ++ nm ++ rest)
        = some (w ++ sp ++ nm ++ rest) := by
      have hre : (sw ++ sp1) ++ w ++ sp ++ nm ++ rest
          = sw ++ sp1 ++ (w ++ sp ++ nm ++ rest) := by simp
      rw [hre]
      exact stripKeywordSpace_complete hkwst hne1 hsp1 hxhead
    rw [hst]
    show (match matchCore (w ++ sp ++ nm ++ rest) with
        | some nm => some (true, nm)
        | none =>
          match matchCore (sw ++ sp1 ++ w ++ sp ++ nm ++ rest) with
          | some nm => some (false, nm)
          | none => none) = some (true, nm)
    rw [matchCore_complete hkw hne hsp hnm hrest]
  | false =>
    have hstateq : stat = [] := hstat
    subst hstateq
    unfold matchDeclAux
    simp only [List.nil_append]
    have hst : stripKeywordSpace staticChars (w ++ sp ++ nm ++ rest) = none := by
      have hre : w ++ sp ++ nm ++ rest = c :: (w' ++ sp ++ nm ++ rest) := by
        rw [hw]; simp
      rw [hre]
      refine stripKeywordSpace_static_none ?_
      rcases hcfp with hc | hc <;> rw [hc] <;> decide
    rw [hst]
    show (match matchCore (w ++ sp ++ nm ++ rest) with
        | some nm => some (false, nm)
        | none => none) = some (false, nm)
    rw [matchCore_complete hkw hne hsp hnm hrest]

theorem matchDecl_iff_declShape (line : List Char) (b : Bool) (nm : List Char) :
    matchDecl line = some (b, nm) ↔ DeclShape line b nm := by
  constructor
  · intro h
    unfold matchDecl at h
    obtain ⟨stat, w, sp, rest, hs0, hstat, hkw, hne, hsp, hname, hrest⟩ := matchDeclAux_shape h
    refine ⟨line.takeWhile isSpaceChar, stat, w, sp, rest, ?_,
      fun c hc => List.mem_takeWhile_imp hc, hstat, hkw, hne, hsp, hname, hrest⟩
    conv_lhs => rw [← List.takeWhile_append_dropWhile (p := isSpaceChar) (l := line)]
    rw [hs0]
    simp
  · intro h
    obtain ⟨ws, stat, w, sp, rest, hline, hws, hstat, hkw, hne, hsp, hname, hrest⟩ := h
    unfold matchDecl
    have hhead : stat ++ w ++ sp ++ nm ++ rest = [] ∨
        ∃ d x', stat ++ w ++ sp ++ nm ++ rest = d :: x' ∧ isSpaceChar d = false := by
      cases b with
      | true =>
        obtain ⟨sw, sp1, hstateq, hkwst, hne1, hsp1⟩ := hstat
        obtain ⟨c, sw', hsw, hcs⟩ :=
          not_space_head_of_keyword (show KeywordCI ('s' :: _) sw from hkwst) (by decide)
        refine Or.inr ⟨c, sw' ++ sp1 ++ w ++ sp ++ nm ++ rest, ?_, hcs⟩
        rw [hstateq, hsw]
        simp
      | false =>
        have hstateq : stat = [] := hstat
        subst hstateq
        rcases hkw with hf | hp
        · obtain ⟨c, w', hweq, hcs⟩ :=
            not_space_head_of_keyword (show KeywordCI ('f' :: _) w from hf) (by decide)
          exact Or.inr ⟨c, w' ++ sp ++ nm ++ rest, by rw [hweq]; simp, hcs⟩
        · obtain ⟨c, w', hweq, hcs⟩ :=
            not_space_head_of_keyword (show KeywordCI ('p' :: _) w from hp) (by decide)
          exact Or.inr ⟨c, w' ++ sp ++ nm ++ rest, by rw [hweq]; simp, hcs⟩
    have hdw : line.dropWhile isSpaceChar = stat ++ w ++ sp ++ nm ++ rest := by
      rw [hline]
      have hre : ws ++ stat ++ w ++ sp ++ nm ++ rest
          = ws ++ (stat ++ w ++ sp ++ nm ++ rest) := by simp
      rw [hre]
      exact dropWhile_append_all hws hhead
    rw [hdw]
    exact matchDeclAux_complete hstat hkw hne hsp hname hrest


/-! ### Association-list lemmas -/

theorem alookup_aupdate {β : Type} (k q : List Char) (f : β → β) (v₀ : β)
    (m : List (List Char × β)) :
    alookup q (aupdate k f v₀ m) =
      if q = k then
        match alookup k m with
        | some v => some (f v)
        | none => some v₀
      else alookup q m := by
  induction m with
  | nil =>
    by_cases h : q = k
    · subst h; simp [aupdate, alookup]
    · have h' : ¬ k = q := fun he => h he.symm
      simp [aupdate, alookup, h, h']
  | cons hd rest ih =>
    obtain ⟨k0, v0⟩ := hd
    by_cases h0 : k0 = k
    · subst h0
      by_cases h1 : k0 = q
      · subst h1
        simp [aupdate, alookup]
      · have h1' : ¬ q = k0 := fun he => h1 he.symm
        simp [aupdate, alookup, h1, h1']
    · by_cases h1 : k0 = q
      · subst h1
        have h2 : ¬ k0 = k := h0
        have h2' : ¬ k0 = k := h0
        simp [aupdate, alookup, h0, h2']
      · simp only [aupdate, if_neg h0, alookup, if_neg h1]
        rw [ih]

theorem mem_of_alookup_eq_some {β : Type} {m : List (List Char × β)} {k : List Char} {v : β}
    (h : alookup k m = some v) : (k, v) ∈ m := by
  induction m with
  | nil => simp [alookup] at h
  | cons hd rest ih =>
    obtain ⟨k0, v0⟩ := hd
    simp only [alookup] at h
    by_cases h0 : k0 = k
    · rw [if_pos h0] at h
      simp only [Option.some.injEq] at h
      subst h0
      subst h
      exact List.mem_cons_self _ _
    · rw [if_neg h0] at h
      exact List.mem_cons_of_mem _ (ih h)

theorem alookup_eq_some_of_mem {β : Type} {m : List (List Char × β)} {k : List Char} {v : β}
    (hnd : (m.map Prod.fst).Nodup) (hm : (k, v) ∈ m) : alookup k m = some v := by
  induction m with
  | nil => simp at hm
  | cons hd rest ih =>
    obtain ⟨k0, v0⟩ := hd
    rw [List.map_cons, List.nodup_cons] at hnd
    rcases List.mem_cons.mp hm with he | hmem
    · injection he with he1 he2
      subst he1; subst he2
      simp [alookup]
    · have hk : ¬ k0 = k := by
        intro he
        subst he
        exact hnd.1 (List.mem_map.mpr ⟨(k0, v), hmem, rfl⟩)
      simp only [alookup, if_neg hk]
      exact ih hnd.2 hmem

theorem alookup_eq_none_iff {β : Type} {m : List (List Char × β)} {k : List Char} :
    alookup k m = none ↔ k ∉ m.map Prod.fst := by
  induction m with
  | nil => simp [alookup]
  | cons hd rest ih =>
    obtain ⟨k0, v0⟩ := hd
    simp only [alookup, List.map_cons, List.mem_cons]
    by_cases h0 : k0 = k
    · subst h0
      rw [if_pos rfl]
      constructor
      · intro h
        exact Option.noConfusion h
      · intro h
        exact absurd (Or.inl rfl) h
    · rw [if_neg h0, ih]
      constructor
      · intro h hk
        rcases hk with he | hmem
        · exact h0 he.symm
        · exact h hmem
      · intro h hmem
        exact h (Or.inr hmem)

theorem keys_aupdate {β : Type} (k : List Char) (f : β → β) (v₀ : β)
    (m : List (List Char × β)) :
    (aupdate k f v₀ m).map Prod.fst =
      if k ∈ m.map Prod.fst then m.map Prod.fst else m.map Prod.fst ++ [k] := by
  induction m with
  | nil =>
    rw [if_neg (by simp)]
    simp [aupdate]
  | cons hd rest ih =>
    obtain ⟨k0, v0⟩ := hd
    by_cases h0 : k0 = k
    · subst h0
      have hupd : aupdate k0 f v₀ ((k0, v0) :: rest) = (k0, f v0) :: rest := by
        simp [aupdate]
      rw [hupd, List.map_cons, List.map_cons, if_pos (List.mem_cons_self _ _)]
    · have h0' : ¬ k = k0 := fun he => h0 he.symm
      have hupd : aupdate k f v₀ ((k0, v0) :: rest) = (k0, v0) :: aupdate k f v₀ rest := by
        simp [aupdate, h0]
      rw [hupd, List.map_cons, ih, List.map_cons]
      by_cases hmem : k ∈ rest.map Prod.fst
      · rw [if_pos hmem, if_pos (List.mem_cons_of_mem _ hmem)]
      · have hknot : k ∉ k0 :: rest.map Prod.fst := by
          intro hk
          rcases List.mem_cons.mp hk with he | hm2
          · exact h0' he
          · exact hmem hm2
        rw [if_neg hmem, if_neg hknot, List.cons_append]

theorem nodup_keys_aupdate {β : Type} {k : List Char} {f : β → β} {v₀ : β}
    {m : List (List Char × β)} (h : (m.map Prod.fst).Nodup) :
    ((aupdate k f v₀ m).map Prod.fst).Nodup := by
  rw [keys_aupdate]
  by_cases hmem : k ∈ m.map Prod.fst
  · rw [if_pos hmem]; exact h
  · rw [if_neg hmem]
    refine List.Nodup.append h (List.nodup_singleton k) ?_
    intro a ha hb
    rw [List.mem_singleton] at hb
    subst hb
    exact hmem ha

theorem aupdate_forall {β : Type} {P : List Char × β → Prop} {k : List Char} {f : β → β}
    {v₀ : β} {m : List (List Char × β)}
    (hm : ∀ q ∈ m, P q) (h0 : P (k, v₀)) (hf : ∀ v, P (k, v) → P (k, f v)) :
    ∀ q ∈ aupdate k f v₀ m, P q := by
  induction m with
  | nil =>
    intro q hq
    simp only [aupdate, List.mem_singleton] at hq
    subst hq
    exact h0
  | cons hd rest ih =>
    obtain ⟨k0, v0⟩ := hd
    intro q hq
    by_cases hk : k0 = k
    · subst hk
      simp only [aupdate, if_pos rfl] at hq
      rcases List.mem_cons.mp hq with rfl | hmem
      · exact hf v0 (hm (k0, v0) (List.mem_cons_self _ _))
      · exact hm q (List.mem_cons_of_mem _ hmem)
    · simp only [aupdate, if_neg hk] at hq
      rcases List.mem_cons.mp hq with rfl | hmem
      · exact hm (k0, v0) (List.mem_cons_self _ _)
      · exact ih (fun r hr => hm r (List.mem_cons_of_mem _ hr)) q hmem

theorem alookup_map {β γ : Type} (g : List Char → β → γ) (q : List Char)
    (m : List (List Char × β)) :
    alookup q (m.map (fun r => (r.1, g r.1 r.2))) = (alookup q m).map (g q) := by
  induction m with
  | nil => simp [alookup]
  | cons hd rest ih =>
    obtain ⟨k0, v0⟩ := hd
    simp only [List.map_cons, alookup]
    by_cases h0 : k0 = q
    · subst h0
      simp
    · rw [if_neg h0, if_neg h0, ih]


/-! ### Declaration-phase characterization -/

/-- All declarations matched in a content, in line order. -/
def declsOfContent (c : List Char) : List (Bool × List Char) :=
  (splitLines c).filterMap matchDecl

/-- All declarations a file contributes (none if the file is unreadable). -/
def declsOfFile (f : PRGFile) : List (Bool × List Char) :=
  match f.content with
  | none => []
  | some c => declsOfContent c

/-- Number of global (non-static) declaration lines of `n` in `f`. -/
def gDeclCount (n : List Char) (f : PRGFile) : Nat := (declsOfFile f).count (false, n)

/-- Number of global declaration lines of `n` in the whole file set. -/
def totalGDecl (n : List Char) (files : List PRGFile) : Nat :=
  (files.map (gDeclCount n)).sum

/-- Path of the first file (in processing order) globally declaring `n`. -/
def firstGDeclFile (n : List Char) (files : List PRGFile) : Option (List Char) :=
  (files.find? (fun f => decide (0 < gDeclCount n f))).map PRGFile.path

theorem alookup_applyDeclLine_global (path : List Char) (st : SymbolTable) (line : List Char)
    (n : List Char) :
    alookup n (applyDeclLine path st line).globalFunctions =
      if matchDecl line = some (false, n) then
        match alookup n st.globalFunctions with
        | some d => some { d with UsageCount := d.UsageCount + 1 }
        | none => some ⟨n, path, false, 1⟩
      else alookup n st.globalFunctions := by
  cases hm : matchDecl line with
  | none =>
    have hg : applyDeclLine path st line = st := by
      unfold applyDeclLine
      rw [hm]
    rw [hg, if_neg (by simp [hm])]
  | some p =>
    obtain ⟨b, m⟩ := p
    cases b with
    | true =>
      have hg : (applyDeclLine path st line).globalFunctions = st.globalFunctions := by
        unfold applyDeclLine
        rw [hm]
        rfl
      rw [hg, if_neg (by simp [hm])]
    | false =>
      have hg : (applyDeclLine path st line).globalFunctions
          = aupdate m (fun gf => { gf with UsageCount := gf.UsageCount + 1 })
              ⟨m, path, false, 1⟩ st.globalFunctions := by
        unfold applyDeclLine
        rw [hm]
        rfl
      rw [hg, alookup_aupdate]
      by_cases hmn : m = n
      · subst hmn
        rw [if_pos rfl, if_pos rfl]
        cases alookup m st.globalFunctions <;> rfl
      · rw [if_neg (fun he => hmn he.symm), if_neg (by simp [hm, hmn])]

theorem staticFunctions_applyDeclLine_not_static (path : List Char) (st : SymbolTable)
    (line : List Char) (hm : ∀ m, matchDecl line ≠ some (true, m)) :
    (applyDeclLine path st line).staticFunctions = st.staticFunctions := by
  unfold applyDeclLine
  cases hml : matchDecl line with
  | none => rfl
  | some p =>
    obtain ⟨b, m⟩ := p
    cases b with
    | true => exact absurd hml (hm m)
    | false => rfl

theorem globalFunctions_applyDeclLine_not_global (path : List Char) (st : SymbolTable)
    (line : List Char) (hm : ∀ m, matchDecl line ≠ some (false, m)) :
    (applyDeclLine path st line).globalFunctions = st.globalFunctions := by
  unfold applyDeclLine
  cases hml : matchDecl line with
  | none => rfl
  | some p =>
    obtain ⟨b, m⟩ := p
    cases b with
    | true => rfl
    | false => exact absurd hml (hm m)

theorem alookup_declsFold_global (path : List Char) (lines : List (List Char)) (n : List Char) :
    ∀ st : SymbolTable,
      alookup n ((lines.foldl (applyDeclLine path) st)).globalFunctions =
        match alookup n st.globalFunctions with
        | some d =>
          some { d with UsageCount :=
            d.UsageCount + ((lines.filterMap matchDecl).count (false, n) : Int) }
        | none =>
          if 0 < (lines.filterMap matchDecl).count (false, n) then
            some ⟨n, path, false, ((lines.filterMap matchDecl).count (false, n) : Int)⟩
          else none := by
  induction lines with
  | nil =>
    intro st
    simp only [List.foldl_nil, List.filterMap_nil, List.count_nil, Nat.cast_zero]
    cases hlk : alookup n st.globalFunctions with
    | none => simp
    | some d =>
      obtain ⟨dn, df, ds, du⟩ := d
      simp
  | cons line rest ih =>
    intro st
    rw [List.foldl_cons, ih (applyDeclLine path st line)]
    rw [alookup_applyDeclLine_global]
    by_cases hm : matchDecl line = some (false, n)
    · rw [if_pos hm]
      have hcnt : ((line :: rest).filterMap matchDecl).count (false, n)
          = (rest.filterMap matchDecl).count (false, n) + 1 := by
        rw [List.filterMap_cons, hm]
        rw [List.count_cons]
        simp
      rw [hcnt]
      cases hlk : alookup n st.globalFunctions with
      | none =>
        simp only
        rw [if_pos (by omega)]
        congr 1
        congr 1
        push_cast
        omega
      | some d =>
        simp only
        congr 1
        obtain ⟨dn, df, ds, du⟩ := d
        simp only [FunctionDeclaration.mk.injEq]
        refine ⟨by trivial, by trivial, by trivial, ?_⟩
        push_cast
        omega
    · rw [if_neg hm]
      have hcnt : ((line :: rest).filterMap matchDecl).count (false, n)
          = (rest.filterMap matchDecl).count (false, n) := by
        rw [List.filterMap_cons]
        cases hml : matchDecl line with
        | none => rfl
        | some p =>
          rw [List.count_cons]
          have : ¬ p = (false, n) := by
            intro he
            subst he
            exact hm hml
          simp [this]
      rw [hcnt]

theorem alookup_processFileForDeclarations_global (f : PRGFile) (st : SymbolTable)
    (n : List Char) :
    alookup n (processFileForDeclarations f st).globalFunctions =
      match alookup n st.globalFunctions with
      | some d => some { d with UsageCount := d.UsageCount + (gDeclCount n f : Int) }
      | none =>
        if 0 < gDeclCount n f then some ⟨n, f.path, false, (gDeclCount n f : Int)⟩
        else none := by
  unfold processFileForDeclarations gDeclCount declsOfFile
  cases hc : f.content with
  | none =>
    cases hlk : alookup n st.globalFunctions with
    | none => simp
    | some d =>
      simp only [List.count_nil, Nat.cast_zero]
      obtain ⟨dn, df, ds, du⟩ := d
      simp
  | some content =>
    rw [alookup_declsFold_global]
    rfl

theorem alookup_declsRun_global (files : List PRGFile) (n : List Char) :
    ∀ st : SymbolTable,
      alookup n (files.foldl (fun st f => processFileForDeclarations f st) st).globalFunctions =
        match alookup n st.globalFunctions with
        | some d => some { d with UsageCount := d.UsageCount + (totalGDecl n files : Int) }
        | none =>
          match firstGDeclFile n files with
          | none => none
          | some p => some ⟨n, p, false, (totalGDecl n files : Int)⟩ := by
  induction files with
  | nil =>
    intro st
    have h1 : firstGDeclFile n [] = none := rfl
    have h2 : totalGDecl n [] = 0 := rfl
    simp only [List.foldl_nil, h1, h2, Nat.cast_zero]
    cases hlk : alookup n st.globalFunctions with
    | none => rfl
    | some d =>
      obtain ⟨dn, df, ds, du⟩ := d
      simp
  | cons f rest ih =>
    intro st
    rw [List.foldl_cons, ih (processFileForDeclarations f st)]
    rw [alookup_processFileForDeclarations_global]
    have htot : totalGDecl n (f :: rest) = gDeclCount n f + totalGDecl n rest := by
      unfold totalGDecl
      rw [List.map_cons, List.sum_cons]
    cases hlk : alookup n st.globalFunctions with
    | some d =>
      simp only
      congr 1
      obtain ⟨dn, df, ds, du⟩ := d
      simp only [FunctionDeclaration.mk.injEq]
      refine ⟨by trivial, by trivial, by trivial, ?_⟩
      rw [htot]
      push_cast
      omega
    | none =>
      by_cases hpos : 0 < gDeclCount n f
      · rw [if_pos hpos]
        have hfind : firstGDeclFile n (f :: rest) = some f.path := by
          unfold firstGDeclFile
          rw [List.find?_cons_of_pos _ (by simpa using hpos)]
          rfl
        rw [hfind, htot]
        have harith : ((gDeclCount n f + totalGDecl n rest : Nat) : Int)
            = ((gDeclCount n f : Nat) : Int) + ((totalGDecl n rest : Nat) : Int) := by
          push_cast
          ring
        rw [harith]
      · rw [if_neg hpos]
        have hzero : gDeclCount n f = 0 := by omega
        have hfind : firstGDeclFile n (f :: rest) = firstGDeclFile n rest := by
          unfold firstGDeclFile
          rw [List.find?_cons_of_neg _ (by simpa using hpos)]
        rw [hfind, htot, hzero]
        simp only [Nat.zero_add]

theorem alookup_runDeclarations_global (files : List PRGFile) (n : List Char) :
    alookup n (runDeclarations files).globalFunctions =
      match firstGDeclFile n files with
      | none => none
      | some p => some ⟨n, p, false, (totalGDecl n files : Int)⟩ := by
  unfold runDeclarations
  rw [alookup_declsRun_global]
  rfl


/-- Two-level lookup in the static table: declaring file, then name. -/
def slookup (p n : List Char) (st : SymbolTable) : Option FunctionDeclaration :=
  (alookup p st.staticFunctions).bind (alookup n)

theorem slookup_applyDeclLine (path : List Char) (st : SymbolTable) (line p n : List Char) :
    slookup p n (applyDeclLine path st line) =
      if p = path ∧ matchDecl line = some (true, n) then some ⟨n, path, true, 1⟩
      else slookup p n st := by
  cases hm : matchDecl line with
  | none =>
    have hg : applyDeclLine path st line = st := by
      unfold applyDeclLine
      rw [hm]
    rw [hg, if_neg (by simp)]
  | some q =>
    obtain ⟨b, m⟩ := q
    cases b with
    | false =>
      have hg : (applyDeclLine path st line).staticFunctions = st.staticFunctions := by
        unfold applyDeclLine
        rw [hm]
        rfl
      unfold slookup
      rw [hg, if_neg (by simp)]
    | true =>
      have hg : (applyDeclLine path st line).staticFunctions
          = aupdate path
              (fun bu => aupdate m (fun x => ⟨m, path, true, 1⟩) ⟨m, path, true, 1⟩ bu)
              [(m, ⟨m, path, true, 1⟩)] st.staticFunctions := by
        unfold applyDeclLine
        rw [hm]
        rfl
      unfold slookup
      rw [hg, alookup_aupdate]
      by_cases hp : p = path
      · rw [if_pos hp]
        cases hb : alookup path st.staticFunctions with
        | none =>
          simp only [Option.some_bind]
          by_cases hmn : m = n
          · subst hmn
            rw [if_pos ⟨hp, rfl⟩]
            simp [alookup]
          · have halk : alookup n [(m, (⟨m, path, true, 1⟩ : FunctionDeclaration))] = none := by
              simp [alookup, hmn]
            rw [halk, if_neg (by intro hc; injection hc.2 with h2; exact hmn (by injection h2))]
            rw [hp, hb]
            rfl
        | some bucket =>
          simp only [Option.some_bind]
          rw [alookup_aupdate]
          by_cases hmn : m = n
          · subst hmn
            rw [if_pos rfl, if_pos ⟨hp, rfl⟩]
            cases alookup m bucket <;> rfl
          · rw [if_neg (fun he => hmn he.symm)]
            rw [if_neg (by intro hc; injection hc.2 with h2; exact hmn (by injection h2))]
            rw [hp, hb]
            rfl
      · rw [if_neg hp, if_neg (fun hc => hp hc.1)]

theorem slookup_declsFold (path : List Char) (lines : List (List Char)) (p n : List Char) :
    ∀ st : SymbolTable,
      slookup p n (lines.foldl (applyDeclLine path) st) =
        if p = path ∧ (true, n) ∈ lines.filterMap matchDecl then some ⟨n, path, true, 1⟩
        else slookup p n st := by
  induction lines with
  | nil =>
    intro st
    rw [List.foldl_nil, if_neg (by simp)]
  | cons line rest ih =>
    intro st
    rw [List.foldl_cons, ih (applyDeclLine path st line), slookup_applyDeclLine]
    by_cases hp : p = path
    · by_cases hrest : (true, n) ∈ rest.filterMap matchDecl
      · have hmem : (true, n) ∈ (line :: rest).filterMap matchDecl := by
          rw [List.filterMap_cons]
          cases matchDecl line with
          | none => exact hrest
          | some v => exact List.mem_cons_of_mem _ hrest
        rw [if_pos ⟨hp, hrest⟩, if_pos ⟨hp, hmem⟩]
      · rw [if_neg (fun hc => hrest hc.2)]
        by_cases hline : matchDecl line = some (true, n)
        · have hmem : (true, n) ∈ (line :: rest).filterMap matchDecl := by
            rw [List.filterMap_cons, hline]
            exact List.mem_cons_self _ _
          rw [if_pos ⟨hp, hline⟩, if_pos ⟨hp, hmem⟩]
        · rw [if_neg (fun hc => hline hc.2)]
          have hnmem : ¬ (p = path ∧ (true, n) ∈ (line :: rest).filterMap matchDecl) := by
            intro hc
            rw [List.filterMap_cons] at hc
            cases hml : matchDecl line with
            | none =>
              rw [hml] at hc
              exact hrest hc.2
            | some v =>
              rw [hml] at hc
              rcases List.mem_cons.mp hc.2 with he | hmem2
              · subst he
                exact hline hml
              · exact hrest hmem2
          rw [if_neg hnmem]
    · rw [if_neg (fun hc => hp hc.1), if_neg (fun hc => hp hc.1), if_neg (fun hc => hp hc.1)]

theorem slookup_processFileForDeclarations (f : PRGFile) (st : SymbolTable) (p n : List Char) :
    slookup p n (processFileForDeclarations f st) =
      if p = f.path ∧ (true, n) ∈ declsOfFile f then some ⟨n, f.path, true, 1⟩
      else slookup p n st := by
  unfold processFileForDeclarations declsOfFile
  cases hc : f.content with
  | none => rw [if_neg (by simp)]
  | some content =>
    rw [slookup_declsFold]
    rfl

theorem slookup_runDeclarations (files : List PRGFile) (p n : List Char) :
    slookup p n (runDeclarations files) =
      if ∃ f ∈ files, f.path = p ∧ (true, n) ∈ declsOfFile f then some ⟨n, p, true, 1⟩
      else none := by
  have hgen : ∀ st, slookup p n (files.foldl (fun st f => processFileForDeclarations f st) st)
      = if ∃ f ∈ files, f.path = p ∧ (true, n) ∈ declsOfFile f then some ⟨n, p, true, 1⟩
        else slookup p n st := by
    intro st
    induction files generalizing st with
    | nil => rw [List.foldl_nil, if_neg (by simp)]
    | cons f rest ih =>
      rw [List.foldl_cons, ih, slookup_processFileForDeclarations]
      by_cases hrest : ∃ g ∈ rest, g.path = p ∧ (true, n) ∈ declsOfFile g
      · have hcons : ∃ g ∈ f :: rest, g.path = p ∧ (true, n) ∈ declsOfFile g := by
          obtain ⟨g, hg, hgp, hgd⟩ := hrest
          exact ⟨g, List.mem_cons_of_mem _ hg, hgp, hgd⟩
        rw [if_pos hrest, if_pos hcons]
      · rw [if_neg hrest]
        by_cases hf : p = f.path ∧ (true, n) ∈ declsOfFile f
        · have hcons : ∃ g ∈ f :: rest, g.path = p ∧ (true, n) ∈ declsOfFile g :=
            ⟨f, List.mem_cons_self _ _, hf.1.symm, hf.2⟩
          rw [if_pos hf, if_pos hcons, hf.1]
        · have hncons : ¬ ∃ g ∈ f :: rest, g.path = p ∧ (true, n) ∈ declsOfFile g := by
            intro hc
            obtain ⟨g, hg, hgp, hgd⟩ := hc
            rcases List.mem_cons.mp hg with rfl | hg2
            · exact hf ⟨hgp.symm, hgd⟩
            · exact hrest ⟨g, hg2, hgp, hgd⟩
          rw [if_neg hf, if_neg hncons]
  unfold runDeclarations
  rw [hgen emptyTable]
  by_cases hex : ∃ f ∈ files, f.path = p ∧ (true, n) ∈ declsOfFile f
  · rw [if_pos hex, if_pos hex]
  · rw [if_neg hex, if_neg hex]
    rfl


/-! ### Usage-phase characterization -/

/-- Amount `processFileForUsage` adds to a global declaration `d` when
processing a readable file at `path` with the given content. -/
def gAddC (path content : List Char) (d : FunctionDeclaration) : Nat :=
  let count := fileFreq content (lowerStr d.Name)
  if path = d.File ∧ 0 < count then count - 1 else count

/-- Amount a file adds to a global declaration's counter (0 if unreadable). -/
def gAdd (f : PRGFile) (d : FunctionDeclaration) : Nat :=
  match f.content with
  | none => 0
  | some c => gAddC f.path c d

/-- Amount `processFileForUsage` adds to a static declaration of the
processed file itself. -/
def sAddC (content : List Char) (d : FunctionDeclaration) : Nat :=
  let count := fileFreq content (lowerStr d.Name)
  if 0 < count then count - 1 else count

/-- Amount a file adds to one of its own static declarations. -/
def sAdd (f : PRGFile) (d : FunctionDeclaration) : Nat :=
  match f.content with
  | none => 0
  | some c => sAddC c d

theorem usage_if_eq (d : FunctionDeclaration) (c : Nat) :
    (if 0 < c then { d with UsageCount := d.UsageCount + (c : Int) } else d)
      = { d with UsageCount := d.UsageCount + (c : Int) } := by
  by_cases h : 0 < c
  · rw [if_pos h]
  · rw [if_neg h]
    have hc : c = 0 := by omega
    subst hc
    obtain ⟨dn, df, ds, du⟩ := d
    simp

theorem updateGlobalUsage_eq (path content : List Char) (d : FunctionDeclaration) :
    updateGlobalUsage path content d
      = { d with UsageCount := d.UsageCount + (gAddC path content d : Int) } :=
  usage_if_eq d (gAddC path content d)

theorem updateStaticUsage_eq (content : List Char) (d : FunctionDeclaration) :
    updateStaticUsage content d
      = { d with UsageCount := d.UsageCount + (sAddC content d : Int) } :=
  usage_if_eq d (sAddC content d)

theorem gAdd_usage_invariant (g : PRGFile) (dn df : List Char) (ds : Bool) (u1 u2 : Int) :
    gAdd g ⟨dn, df, ds, u1⟩ = gAdd g ⟨dn, df, ds, u2⟩ := by
  unfold gAdd
  cases g.content <;> rfl

theorem sAdd_usage_invariant (g : PRGFile) (dn df : List Char) (ds : Bool) (u1 u2 : Int) :
    sAdd g ⟨dn, df, ds, u1⟩ = sAdd g ⟨dn, df, ds, u2⟩ := by
  unfold sAdd
  cases g.content <;> rfl

theorem alookup_map_val {β γ : Type} (g : β → γ) (q : List Char)
    (m : List (List Char × β)) :
    alookup q (m.map (fun r => (r.1, g r.2))) = (alookup q m).map g := by
  induction m with
  | nil => simp [alookup]
  | cons hd rest ih =>
    obtain ⟨k0, v0⟩ := hd
    simp only [List.map_cons, alookup]
    by_cases h0 : k0 = q
    · subst h0
      simp
    · rw [if_neg h0, if_neg h0, ih]

theorem alookup_map_cond {β : Type} (path : List Char) (g : β → β) (q : List Char)
    (m : List (List Char × β)) :
    alookup q (m.map (fun r => if r.1 = path then (r.1, g r.2) else r)) =
      if q = path then (alookup q m).map g else alookup q m := by
  induction m with
  | nil => by_cases h : q = path <;> simp [alookup, h]
  | cons hd rest ih =>
    obtain ⟨k0, v0⟩ := hd
    by_cases h0 : k0 = path
    · rw [show ((k0, v0) :: rest).map (fun r => if r.1 = path then (r.1, g r.2) else r)
          = (k0, g v0) :: rest.map (fun r => if r.1 = path then (r.1, g r.2) else r) by
        rw [List.map_cons]
        simp [h0]]
      by_cases h1 : k0 = q
      · subst h1
        rw [if_pos h0]
        simp only [alookup, if_pos rfl, if_true]
        rfl
      · simp only [alookup, if_neg h1]
        rw [ih]
    · rw [show ((k0, v0) :: rest).map (fun r => if r.1 = path then (r.1, g r.2) else r)
          = (k0, v0) :: rest.map (fun r => if r.1 = path then (r.1, g r.2) else r) by
        rw [List.map_cons]
        simp [h0]]
      by_cases h1 : k0 = q
      · subst h1
        rw [if_neg h0]
        simp only [alookup, if_pos rfl, if_true]
      · simp only [alookup, if_neg h1]
        rw [ih]

theorem alookup_processFileForUsage_global (f : PRGFile) (st : SymbolTable) (n : List Char) :
    alookup n (processFileForUsage f st).globalFunctions =
      (alookup n st.globalFunctions).map
        (fun d => { d with UsageCount := d.UsageCount + (gAdd f d : Int) }) := by
  cases hc : f.content with
  | none =>
    have hp : processFileForUsage f st = st := by
      unfold processFileForUsage
      rw [hc]
    rw [hp]
    cases hlk : alookup n st.globalFunctions with
    | none => rfl
    | some d =>
      obtain ⟨dn, df, ds, du⟩ := d
      simp [gAdd, hc]
  | some content =>
    have hp : (processFileForUsage f st).globalFunctions
        = st.globalFunctions.map (fun r => (r.1, updateGlobalUsage f.path content r.2)) := by
      unfold processFileForUsage
      rw [hc]
    rw [hp, alookup_map_val]
    cases hlk : alookup n st.globalFunctions with
    | none => rfl
    | some d =>
      simp only [Option.map_some']
      rw [updateGlobalUsage_eq]
      have hg : gAdd f d = gAddC f.path content d := by
        unfold gAdd
        rw [hc]
      rw [hg]

/-- Total amount the usage phase adds to a global declaration. -/
def usageAdds (d : FunctionDeclaration) (files : List PRGFile) : Nat :=
  (files.map (fun f => gAdd f d)).sum

theorem alookup_runUsage_global (files : List PRGFile) (st : SymbolTable) (n : List Char) :
    alookup n (runUsage files st).globalFunctions =
      (alookup n st.globalFunctions).map
        (fun d => { d with UsageCount := d.UsageCount + (usageAdds d files : Int) }) := by
  unfold runUsage
  induction files generalizing st with
  | nil =>
    rw [List.foldl_nil]
    cases hlk : alookup n st.globalFunctions with
    | none => rfl
    | some d =>
      obtain ⟨dn, df, ds, du⟩ := d
      simp [usageAdds]
  | cons f rest ih =>
    rw [List.foldl_cons, ih, alookup_processFileForUsage_global]
    cases hlk : alookup n st.globalFunctions with
    | none => rfl
    | some d =>
      obtain ⟨dn, df, ds, du⟩ := d
      simp only [Option.map_some']
      have hcong : usageAdds ⟨dn, df, ds, du + (gAdd f ⟨dn, df, ds, du⟩ : Int)⟩ rest
          = usageAdds ⟨dn, df, ds, du⟩ rest := by
        unfold usageAdds
        congr 1
      rw [hcong]
      have hadds : (usageAdds ⟨dn, df, ds, du⟩ (f :: rest) : Int)
          = (gAdd f ⟨dn, df, ds, du⟩ : Int) + (usageAdds ⟨dn, df, ds, du⟩ rest : Int) := by
        unfold usageAdds
        rw [List.map_cons, List.sum_cons]
        push_cast
        ring
      rw [hadds]
      congr 1
      simp only [FunctionDeclaration.mk.injEq]
      refine ⟨by trivial, by trivial, by trivial, by ring⟩

theorem slookup_processFileForUsage (f : PRGFile) (st : SymbolTable) (p n : List Char) :
    slookup p n (processFileForUsage f st) =
      if p = f.path then
        (slookup p n st).map
          (fun d => { d with UsageCount := d.UsageCount + (sAdd f d : Int) })
      else slookup p n st := by
  cases hc : f.content with
  | none =>
    have hp : processFileForUsage f st = st := by
      unfold processFileForUsage
      rw [hc]
    rw [hp]
    by_cases h : p = f.path
    · rw [if_pos h]
      cases hlk : slookup p n st with
      | none => rfl
      | some d =>
        obtain ⟨dn, df, ds, du⟩ := d
        simp [sAdd, hc]
    · rw [if_neg h]
  | some content =>
    have hp : (processFileForUsage f st).staticFunctions
        = st.staticFunctions.map (fun r => if r.1 = f.path then
            (r.1, r.2.map (fun q2 => (q2.1, updateStaticUsage content q2.2))) else r) := by
      unfold processFileForUsage
      rw [hc]
    unfold slookup
    rw [hp, alookup_map_cond]
    by_cases h : p = f.path
    · rw [if_pos h, if_pos h]
      cases hb : alookup p st.staticFunctions with
      | none => rfl
      | some bucket =>
        simp only [Option.map_some', Option.some_bind]
        rw [alookup_map_val]
        cases hv : alookup n bucket with
        | none => rfl
        | some d =>
          simp only [Option.map_some']
          rw [updateStaticUsage_eq]
          have hs : sAdd f d = sAddC content d := by
            unfold sAdd
            rw [hc]
          rw [hs]
    · rw [if_neg h, if_neg h]

/-- Total amount the usage phase adds to a static declaration stored under
file path `p`. -/
def sAddsAt (p : List Char) (d : FunctionDeclaration) (files : List PRGFile) : Nat :=
  (files.map (fun f => if f.path = p then sAdd f d else 0)).sum

theorem slookup_runUsage (files : List PRGFile) (st : SymbolTable) (p n : List Char) :
    slookup p n (runUsage files st) =
      (slookup p n st).map
        (fun d => { d with UsageCount := d.UsageCount + (sAddsAt p d files : Int) }) := by
  unfold runUsage
  induction files generalizing st with
  | nil =>
    rw [List.foldl_nil]
    cases hlk : slookup p n st with
    | none => rfl
    | some d =>
      obtain ⟨dn, df, ds, du⟩ := d
      simp [sAddsAt]
  | cons f rest ih =>
    rw [List.foldl_cons, ih, slookup_processFileForUsage]
    by_cases h : p = f.path
    · rw [if_pos h]
      cases hlk : slookup p n st with
      | none => rfl
      | some d =>
        obtain ⟨dn, df, ds, du⟩ := d
        simp only [Option.map_some']
        have hcong : sAddsAt p ⟨dn, df, ds, du + (sAdd f ⟨dn, df, ds, du⟩ : Int)⟩ rest
            = sAddsAt p ⟨dn, df, ds, du⟩ rest := by
          unfold sAddsAt
          congr 1
        rw [hcong]
        have hadds : (sAddsAt p ⟨dn, df, ds, du⟩ (f :: rest) : Int)
            = (sAdd f ⟨dn, df, ds, du⟩ : Int) + (sAddsAt p ⟨dn, df, ds, du⟩ rest : Int) := by
          unfold sAddsAt
          rw [List.map_cons, List.sum_cons, if_pos h.symm]
          push_cast
          ring
        rw [hadds]
        congr 1
        simp only [FunctionDeclaration.mk.injEq]
        refine ⟨by trivial, by trivial, by trivial, by ring⟩
    · rw [if_neg h]
      cases hlk : slookup p n st with
      | none => rfl
      | some d =>
        obtain ⟨dn, df, ds, du⟩ := d
        simp only [Option.map_some']
        have hskip : sAddsAt p ⟨dn, df, ds, du⟩ (f :: rest)
            = sAddsAt p ⟨dn, df, ds, du⟩ rest := by
          unfold sAddsAt
          rw [List.map_cons, List.sum_cons, if_neg (fun he => h he.symm)]
          simp
        rw [hskip]


/-! ### A declaration line always contributes one token of its own name -/

theorem declShape_token {line : List Char} {b : Bool} {nm : List Char}
    (h : DeclShape line b nm) :
    ∃ pre rest, line = pre ++ nm ++ rest ∧
      (∃ pre' cl, pre = pre' ++ [cl] ∧ isSpaceChar cl = true) ∧
      NameRun nm ∧ NoNameHead rest := by
  obtain ⟨ws, stat, kw, sp, rest, hline, hws, hstat, hkw, hne, hsp, hname, hrest⟩ := h
  rcases List.eq_nil_or_concat sp with rfl | ⟨sp', cl, rfl⟩
  · exact absurd rfl hne
  · refine ⟨ws ++ stat ++ kw ++ (sp' ++ [cl]), rest, ?_,
      ⟨ws ++ stat ++ kw ++ sp', cl, by simp, hsp cl (by simp)⟩, hname, hrest⟩
    rw [hline]
    simp

theorem fileFreq_pos_of_decl {content line : List Char} {b : Bool} {nm : List Char}
    (hline : line ∈ splitLines content) (hm : matchDecl line = some (b, nm)) :
    0 < fileFreq content (lowerStr nm) := by
  have hshape := (matchDecl_iff_declShape line b nm).mp hm
  obtain ⟨pre, rest, hdec, ⟨pre', cl, hpre, hcl⟩, hname, hrest⟩ := declShape_token hshape
  obtain ⟨P, S, hcontent, hP, hS⟩ := mem_splitLines hline
  have hmem : lowerStr nm ∈ tokenize (lowerStr content) := by
    have hre : lowerStr content
        = lowerStr (P ++ pre) ++ lowerStr nm ++ lowerStr (rest ++ S) := by
      rw [hcontent, hdec]
      unfold lowerStr
      simp
    rw [hre]
    apply token_mem_tokenize
    · intro he
      exact hname.1 (by simpa [lowerStr] using he)
    · intro c hc
      obtain ⟨d, hd, rfl⟩ := List.mem_map.mp hc
      rw [isIdentRune_toLower]
      have hn := hname.2 d hd
      rw [isNameChar_eq_isIdentRune] at hn
      exact hn
    · refine Or.inr ⟨lowerStr (P ++ pre'), Char.toLower cl, ?_, ?_⟩
      · rw [hpre]
        unfold lowerStr
        simp
      · rw [isIdentRune_toLower]
        exact not_isIdentRune_of_isSpaceChar hcl
    · cases rest with
      | nil =>
        rcases hS with rfl | ⟨S', rfl⟩
        · left
          simp [lowerStr]
        · right
          refine ⟨Char.toLower '\n', lowerStr S', by simp [lowerStr], ?_⟩
          rw [isIdentRune_toLower]
          decide
      | cons d r' =>
        right
        refine ⟨Char.toLower d, lowerStr (r' ++ S), by simp [lowerStr], ?_⟩
        rw [isIdentRune_toLower]
        have hd : isNameChar d = false := hrest
        rw [isNameChar_eq_isIdentRune] at hd
        exact hd
  unfold fileFreq countTok
  exact List.count_pos_iff.mpr hmem

theorem content_freq_pos_of_decl {f : PRGFile} {b : Bool} {n : List Char}
    (h : (b, n) ∈ declsOfFile f) :
    ∃ c, f.content = some c ∧ 0 < fileFreq c (lowerStr n) := by
  unfold declsOfFile at h
  cases hc : f.content with
  | none =>
    rw [hc] at h
    simp at h
  | some c =>
    rw [hc] at h
    unfold declsOfContent at h
    obtain ⟨line, hline, hm⟩ := List.mem_filterMap.mp h
    exact ⟨c, rfl, fileFreq_pos_of_decl hline hm⟩

theorem gDeclCount_pos_iff {n : List Char} {f : PRGFile} :
    0 < gDeclCount n f ↔ (false, n) ∈ declsOfFile f := by
  unfold gDeclCount
  exact List.count_pos_iff


/-! ### Table well-formedness invariants -/

/-- Shape invariant of the symbol table: keys are duplicate-free and every
stored declaration's `Name` is its key (and, for statics, its `File` is the
outer key). -/
def WFTable (st : SymbolTable) : Prop :=
  (st.globalFunctions.map Prod.fst).Nodup ∧
  (∀ q ∈ st.globalFunctions, q.2.Name = q.1) ∧
  (st.staticFunctions.map Prod.fst).Nodup ∧
  (∀ q ∈ st.staticFunctions, (q.2.map Prod.fst).Nodup ∧
    ∀ r ∈ q.2, r.2.Name = r.1 ∧ r.2.File = q.1)

theorem WFTable_emptyTable : WFTable emptyTable := by
  refine ⟨by simp [emptyTable], ?_, by simp [emptyTable], ?_⟩
  · intro q hq
    simp [emptyTable] at hq
  · intro q hq
    simp [emptyTable] at hq

theorem WFTable_applyDeclLine {st : SymbolTable} (h : WFTable st) (path line : List Char) :
    WFTable (applyDeclLine path st line) := by
  obtain ⟨h1, h2, h3, h4⟩ := h
  cases hm : matchDecl line with
  | none =>
    have hg : applyDeclLine path st line = st := by
      unfold applyDeclLine
      rw [hm]
    rw [hg]
    exact ⟨h1, h2, h3, h4⟩
  | some q =>
    obtain ⟨b, m⟩ := q
    cases b with
    | false =>
      have hg : applyDeclLine path st line
          = { st with globalFunctions :=
                (aupdate m (fun gf => { gf with UsageCount := gf.UsageCount + 1 })
                  ⟨m, path, false, 1⟩ st.globalFunctions) } := by
        unfold applyDeclLine
        rw [hm]
        rfl
      rw [hg]
      refine ⟨nodup_keys_aupdate h1, ?_, h3, h4⟩
      exact aupdate_forall h2 rfl (fun v hv => hv)
    | true =>
      have hg : applyDeclLine path st line
          = { st with staticFunctions :=
                (aupdate path
                  (fun bu => aupdate m (fun x => ⟨m, path, true, 1⟩) ⟨m, path, true, 1⟩ bu)
                  [(m, ⟨m, path, true, 1⟩)] st.staticFunctions) } := by
        unfold applyDeclLine
        rw [hm]
        rfl
      rw [hg]
      refine ⟨h1, h2, nodup_keys_aupdate h3, ?_⟩
      apply aupdate_forall h4
      · constructor
        · simp
        · intro r hr
          simp only [List.mem_singleton] at hr
          subst hr
          exact ⟨rfl, rfl⟩
      · intro v hv
        constructor
        · exact nodup_keys_aupdate hv.1
        · apply aupdate_forall hv.2
          · exact ⟨rfl, rfl⟩
          · intro w hw
            exact ⟨rfl, rfl⟩

theorem WFTable_processFileForDeclarations {st : SymbolTable} (h : WFTable st) (f : PRGFile) :
    WFTable (processFileForDeclarations f st) := by
  unfold processFileForDeclarations
  cases hc : f.content with
  | none => exact h
  | some content =>
    have hgen : ∀ (lines : List (List Char)) (st : SymbolTable), WFTable st
        → WFTable (lines.foldl (applyDeclLine f.path) st) := by
      intro lines
      induction lines with
      | nil => intro st h; exact h
      | cons line rest ih =>
        intro st h
        rw [List.foldl_cons]
        exact ih _ (WFTable_applyDeclLine h f.path line)
    exact hgen (splitLines content) st h

theorem WFTable_runDeclarations (files : List PRGFile) : WFTable (runDeclarations files) := by
  unfold runDeclarations
  have hgen : ∀ st, WFTable st → WFTable (files.foldl (fun st f => processFileForDeclarations f st) st) := by
    induction files with
    | nil => intro st h; exact h
    | cons f rest ih =>
      intro st h
      rw [List.foldl_cons]
      exact ih _ (WFTable_processFileForDeclarations h f)
  exact hgen emptyTable WFTable_emptyTable

theorem WFTable_processFileForUsage {st : SymbolTable} (h : WFTable st) (f : PRGFile) :
    WFTable (processFileForUsage f st) := by
  obtain ⟨h1, h2, h3, h4⟩ := h
  cases hc : f.content with
  | none =>
    have hp : processFileForUsage f st = st := by
      unfold processFileForUsage
      rw [hc]
    rw [hp]
    exact ⟨h1, h2, h3, h4⟩
  | some content =>
    have hp : processFileForUsage f st
        = { globalFunctions :=
              st.globalFunctions.map (fun r => (r.1, updateGlobalUsage f.path content r.2)),
            staticFunctions :=
              st.staticFunctions.map (fun r => if r.1 = f.path then
                (r.1, r.2.map (fun q2 => (q2.1, updateStaticUsage content q2.2))) else r) } := by
      unfold processFileForUsage
      rw [hc]
    rw [hp]
    have hkeysg : (st.globalFunctions.map (fun r => (r.1, updateGlobalUsage f.path content r.2))).map Prod.fst
        = st.globalFunctions.map Prod.fst := by
      rw [List.map_map]
      rfl
    have hkeyss : (st.staticFunctions.map (fun r => if r.1 = f.path then
          (r.1, r.2.map (fun q2 => (q2.1, updateStaticUsage content q2.2))) else r)).map Prod.fst
        = st.staticFunctions.map Prod.fst := by
      rw [List.map_map]
      apply List.map_congr_left
      intro r hr
      by_cases hrp : r.1 = f.path
      · simp [hrp]
      · simp [hrp]
    refine ⟨by rw [hkeysg]; exact h1, ?_, by rw [hkeyss]; exact h3, ?_⟩
    · intro q hq
      obtain ⟨r, hr, rfl⟩ := List.mem_map.mp hq
      have := h2 r hr
      rw [updateGlobalUsage_eq]
      exact this
    · intro q hq
      obtain ⟨r, hr, rfl⟩ := List.mem_map.mp hq
      by_cases hrp : r.1 = f.path
      · rw [if_pos hrp]
        obtain ⟨hnd, hprop⟩ := h4 r hr
        constructor
        · have : ((r.2.map (fun q2 => (q2.1, updateStaticUsage content q2.2))).map Prod.fst)
              = r.2.map Prod.fst := by
            rw [List.map_map]
            rfl
          rw [this]
          exact hnd
        · intro w hw
          obtain ⟨w0, hw0, rfl⟩ := List.mem_map.mp hw
          have hp0 := hprop w0 hw0
          rw [updateStaticUsage_eq]
          exact hp0
      · rw [if_neg hrp]
        exact h4 r hr

theorem WFTable_runUsage (files : List PRGFile) {st : SymbolTable} (h : WFTable st) :
    WFTable (runUsage files st) := by
  unfold runUsage
  induction files generalizing st with
  | nil => exact h
  | cons f rest ih =>
    rw [List.foldl_cons]
    exact ih (WFTable_processFileForUsage h f)

theorem WFTable_scanRun (declOrder usageOrder : List PRGFile) :
    WFTable (scanRun declOrder usageOrder) :=
  WFTable_runUsage usageOrder (WFTable_runDeclarations declOrder)

/-! ### Counter lower-bound invariant -/

/-- Every stored counter is at least 1. -/
def MinCounts (st : SymbolTable) : Prop :=
  (∀ q ∈ st.globalFunctions, 1 ≤ q.2.UsageCount) ∧
  (∀ q ∈ st.staticFunctions, ∀ r ∈ q.2, 1 ≤ r.2.UsageCount)

theorem MinCounts_emptyTable : MinCounts emptyTable := by
  constructor
  · intro q hq
    simp [emptyTable] at hq
  · intro q hq
    simp [emptyTable] at hq

theorem MinCounts_applyDeclLine {st : SymbolTable} (h : MinCounts st) (path line : List Char) :
    MinCounts (applyDeclLine path st line) := by
  obtain ⟨h1, h2⟩ := h
  cases hm : matchDecl line with
  | none =>
    have hg : applyDeclLine path st line = st := by
      unfold applyDeclLine
      rw [hm]
    rw [hg]
    exact ⟨h1, h2⟩
  | some q =>
    obtain ⟨b, m⟩ := q
    cases b with
    | false =>
      have hg : applyDeclLine path st line
          = { st with globalFunctions :=
                (aupdate m (fun gf => { gf with UsageCount := gf.UsageCount + 1 })
                  ⟨m, path, false, 1⟩ st.globalFunctions) } := by
        unfold applyDeclLine
        rw [hm]
        rfl
      rw [hg]
      refine ⟨?_, h2⟩
      apply aupdate_forall h1
      · norm_num
      · intro v hv
        have hv' : 1 ≤ v.UsageCount := hv
        show 1 ≤ v.UsageCount + 1
        omega
    | true =>
      have hg : applyDeclLine path st line
          = { st with staticFunctions :=
                (aupdate path
                  (fun bu => aupdate m (fun x => ⟨m, path, true, 1⟩) ⟨m, path, true, 1⟩ bu)
                  [(m, ⟨m, path, true, 1⟩)] st.staticFunctions) } := by
        unfold applyDeclLine
        rw [hm]
        rfl
      rw [hg]
      refine ⟨h1, ?_⟩
      apply aupdate_forall h2
      · intro r hr
        simp only [List.mem_singleton] at hr
        subst hr
        norm_num
      · intro v hv
        apply aupdate_forall hv
        · norm_num
        · intro w hw
          norm_num

theorem MinCounts_processFileForDeclarations {st : SymbolTable} (h : MinCounts st)
    (f : PRGFile) : MinCounts (processFileForDeclarations f st) := by
  unfold processFileForDeclarations
  cases hc : f.content with
  | none => exact h
  | some content =>
    have hgen : ∀ (lines : List (List Char)) (st : SymbolTable), MinCounts st
        → MinCounts (lines.foldl (applyDeclLine f.path) st) := by
      intro lines
      induction lines with
      | nil => intro st h; exact h
      | cons line rest ih =>
        intro st h
        rw [List.foldl_cons]
        exact ih _ (MinCounts_applyDeclLine h f.path line)
    exact hgen (splitLines content) st h

theorem MinCounts_runDeclarations (files : List PRGFile) : MinCounts (runDeclarations files) := by
  unfold runDeclarations
  have hgen : ∀ st, MinCounts st
      → MinCounts (files.foldl (fun st f => processFileForDeclarations f st) st) := by
    induction files with
    | nil => intro st h; exact h
    | cons f rest ih =>
      intro st h
      rw [List.foldl_cons]
      exact ih _ (MinCounts_processFileForDeclarations h f)
  exact hgen emptyTable MinCounts_emptyTable

theorem MinCounts_processFileForUsage {st : SymbolTable} (h : MinCounts st) (f : PRGFile) :
    MinCounts (processFileForUsage f st) := by
  obtain ⟨h1, h2⟩ := h
  cases hc : f.content with
  | none =>
    have hp : processFileForUsage f st = st := by
      unfold processFileForUsage
      rw [hc]
    rw [hp]
    exact ⟨h1, h2⟩
  | some content =>
    have hp : processFileForUsage f st
        = { globalFunctions :=
              st.globalFunctions.map (fun r => (r.1, updateGlobalUsage f.path content r.2)),
            staticFunctions :=
              st.staticFunctions.map (fun r => if r.1 = f.path then
                (r.1, r.2.map (fun q2 => (q2.1, updateStaticUsage content q2.2))) else r) } := by
      unfold processFileForUsage
      rw [hc]
    rw [hp]
    constructor
    · intro q hq
      obtain ⟨r, hr, rfl⟩ := List.mem_map.mp hq
      have hb := h1 r hr
      rw [updateGlobalUsage_eq]
      simp only
      have : (0 : Int) ≤ (gAddC f.path content r.2 : Int) := Int.natCast_nonneg _
      omega
    · intro q hq
      obtain ⟨r, hr, rfl⟩ := List.mem_map.mp hq
      by_cases hrp : r.1 = f.path
      · rw [if_pos hrp]
        intro w hw
        obtain ⟨w0, hw0, rfl⟩ := List.mem_map.mp hw
        have hb := h2 r hr w0 hw0
        rw [updateStaticUsage_eq]
        simp only
        have : (0 : Int) ≤ (sAddC content w0.2 : Int) := Int.natCast_nonneg _
        omega
      · rw [if_neg hrp]
        exact h2 r hr

theorem MinCounts_runUsage (files : List PRGFile) {st : SymbolTable} (h : MinCounts st) :
    MinCounts (runUsage files st) := by
  unfold runUsage
  induction files generalizing st with
  | nil => exact h
  | cons f rest ih =>
    rw [List.foldl_cons]
    exact ih (MinCounts_processFileForUsage h f)

theorem MinCounts_scanRun (declOrder usageOrder : List PRGFile) :
    MinCounts (scanRun declOrder usageOrder) :=
  MinCounts_runUsage usageOrder (MinCounts_runDeclarations declOrder)


/-! ### Schedule-independence infrastructure -/

/-- Frequency of the lower-cased name `n` in a file (0 if unreadable). -/
def fileFreqOf (f : PRGFile) (n : List Char) : Nat :=
  match f.content with
  | none => 0
  | some c => fileFreq c (lowerStr n)

/-- Total frequency of the lower-cased name over a file set. -/
def totalFreq (n : List Char) (files : List PRGFile) : Nat :=
  (files.map (fun f => fileFreqOf f n)).sum

theorem gAdd_eq (f : PRGFile) (n D : List Char) (b : Bool) (u : Int) :
    gAdd f ⟨n, D, b, u⟩ =
      if f.path = D ∧ 0 < fileFreqOf f n then fileFreqOf f n - 1 else fileFreqOf f n := by
  unfold gAdd gAddC fileFreqOf
  cases f.content with
  | none => simp
  | some c => rfl

theorem sAdd_eq (f : PRGFile) (n D : List Char) (b : Bool) (u : Int) :
    sAdd f ⟨n, D, b, u⟩ = fileFreqOf f n - 1 := by
  unfold sAdd sAddC fileFreqOf
  cases f.content with
  | none => rfl
  | some c =>
    simp only
    by_cases h : 0 < fileFreq c (lowerStr n)
    · rw [if_pos h]
    · rw [if_neg h]
      omega

theorem firstGDeclFile_none_iff (n : List Char) (l : List PRGFile) :
    firstGDeclFile n l = none ↔ totalGDecl n l = 0 := by
  unfold firstGDeclFile totalGDecl
  rw [Option.map_eq_none', List.find?_eq_none]
  constructor
  · intro h
    rw [List.sum_eq_zero_iff]
    intro x hx
    obtain ⟨f, hf, rfl⟩ := List.mem_map.mp hx
    have := h f hf
    simp only [decide_eq_true_eq] at this
    omega
  · intro h f hf
    rw [List.sum_eq_zero_iff] at h
    have := h (gDeclCount n f) (List.mem_map.mpr ⟨f, hf, rfl⟩)
    simp only [decide_eq_true_eq]
    omega

theorem firstGDeclFile_some {n : List Char} {l : List PRGFile} {D : List Char}
    (h : firstGDeclFile n l = some D) :
    ∃ f ∈ l, f.path = D ∧ 0 < gDeclCount n f := by
  unfold firstGDeclFile at h
  cases hf : l.find? (fun f => decide (0 < gDeclCount n f)) with
  | none => rw [hf] at h; simp at h
  | some f =>
    rw [hf] at h
    simp only [Option.map_some', Option.some.injEq] at h
    have hmem := List.mem_of_find?_eq_some hf
    have hpred := List.find?_some hf
    simp only [decide_eq_true_eq] at hpred
    exact ⟨f, hmem, h, hpred⟩

theorem declFile_unique {n : List Char} {base : List PRGFile}
    (htot : totalGDecl n base = 1) {f g : PRGFile} (hf : f ∈ base) (hg : g ∈ base)
    (hpf : 0 < gDeclCount n f) (hpg : 0 < gDeclCount n g) : f = g := by
  unfold totalGDecl at htot
  induction base with
  | nil => simp at hf
  | cons a rest ih =>
    rw [List.map_cons, List.sum_cons] at htot
    by_cases ha : 0 < gDeclCount n a
    · have hrest0 : (rest.map (gDeclCount n)).sum = 0 := by omega
      have hzero : ∀ x ∈ rest, gDeclCount n x = 0 := by
        intro x hx
        have := (List.sum_eq_zero_iff).mp hrest0 (gDeclCount n x)
          (List.mem_map.mpr ⟨x, hx, rfl⟩)
        exact this
      rcases List.mem_cons.mp hf with rfl | hf2
      · rcases List.mem_cons.mp hg with rfl | hg2
        · rfl
        · exact absurd hpg (by rw [hzero g hg2]; omega)
      · exact absurd hpf (by rw [hzero f hf2]; omega)
    · have ha0 : gDeclCount n a = 0 := by omega
      rw [ha0] at htot
      rcases List.mem_cons.mp hf with rfl | hf2
      · exact absurd hpf (by rw [ha0]; omega)
      · rcases List.mem_cons.mp hg with rfl | hg2
        · exact absurd hpg (by rw [ha0]; omega)
        · exact ih (by omega) hf2 hg2

theorem totalFreq_ge_of_mem {n : List Char} {l : List PRGFile} {f : PRGFile}
    (hf : f ∈ l) : fileFreqOf f n ≤ totalFreq n l := by
  unfold totalFreq
  exact List.single_le_sum (fun x _ => Nat.zero_le x) _ (List.mem_map.mpr ⟨f, hf, rfl⟩)

theorem usageAdds_eq {n D : List Char} {b : Bool} {u : Int} {l : List PRGFile}
    (hnd : (l.map PRGFile.path).Nodup)
    (hex : ∃ f ∈ l, f.path = D ∧ 0 < fileFreqOf f n) :
    usageAdds ⟨n, D, b, u⟩ l = totalFreq n l - 1 := by
  induction l with
  | nil => simp at hex
  | cons f rest ih =>
    rw [List.map_cons, List.nodup_cons] at hnd
    unfold usageAdds totalFreq
    rw [List.map_cons, List.sum_cons, List.map_cons, List.sum_cons]
    by_cases hfD : f.path = D ∧ 0 < fileFreqOf f n
    · have hrest : ∀ g ∈ rest, gAdd g ⟨n, D, b, u⟩ = fileFreqOf g n := by
        intro g hg
        rw [gAdd_eq]
        have hne : ¬ g.path = D := by
          intro he
          apply hnd.1
          have hpq : f.path = g.path := by rw [hfD.1, he]
          rw [hpq]
          exact List.mem_map.mpr ⟨g, hg, rfl⟩
        rw [if_neg (fun hc => hne hc.1)]
      have hsum : (rest.map (fun g => gAdd g ⟨n, D, b, u⟩)).sum
          = (rest.map (fun g => fileFreqOf g n)).sum := by
        congr 1
        exact List.map_congr_left hrest
      rw [gAdd_eq, if_pos hfD]
      have : (rest.map (fun g => gAdd g (⟨n, D, b, u⟩ : FunctionDeclaration))).sum
          = (rest.map (fun g => fileFreqOf g n)).sum := hsum
      rw [this]
      have hpos := hfD.2
      omega
    · rw [gAdd_eq, if_neg hfD]
      obtain ⟨g, hg, hgD, hgpos⟩ := hex
      rcases List.mem_cons.mp hg with rfl | hg2
      · exact absurd ⟨hgD, hgpos⟩ hfD
      · have hih := ih hnd.2 ⟨g, hg2, hgD, hgpos⟩
        unfold usageAdds totalFreq at hih
        rw [hih]
        have hge : fileFreqOf g n ≤ (rest.map (fun x => fileFreqOf x n)).sum :=
          totalFreq_ge_of_mem hg2
        omega

theorem sAddsAt_eq_single {p : List Char} {d : FunctionDeclaration} {l : List PRGFile}
    (hnd : (l.map PRGFile.path).Nodup) {f : PRGFile} (hf : f ∈ l) (hfp : f.path = p) :
    sAddsAt p d l = sAdd f d := by
  induction l with
  | nil => simp at hf
  | cons a rest ih =>
    rw [List.map_cons, List.nodup_cons] at hnd
    unfold sAddsAt
    rw [List.map_cons, List.sum_cons]
    rcases List.mem_cons.mp hf with rfl | hf2
    · rw [if_pos hfp]
      have hrest : ∀ g ∈ rest, (if g.path = p then sAdd g d else 0) = 0 := by
        intro g hg
        have hne : ¬ g.path = p := by
          intro he
          apply hnd.1
          have hpq : f.path = g.path := by rw [hfp, he]
          rw [hpq]
          exact List.mem_map.mpr ⟨g, hg, rfl⟩
        rw [if_neg hne]
      have hsum : (rest.map (fun g => if g.path = p then sAdd g d else 0)).sum = 0 := by
        rw [List.sum_eq_zero_iff]
        intro x hx
        obtain ⟨g, hg, rfl⟩ := List.mem_map.mp hx
        exact hrest g hg
      rw [hsum]
      omega
    · have hne : ¬ a.path = p := by
        intro he
        apply hnd.1
        have hpq : a.path = f.path := by rw [he, hfp]
        rw [hpq]
        exact List.mem_map.mpr ⟨f, hf2, rfl⟩
      rw [if_neg hne]
      have hih := ih hnd.2 hf2
      unfold sAddsAt at hih
      rw [hih]
      omega

theorem totalGDecl_perm {n : List Char} {l1 l2 : List PRGFile} (h : l1.Perm l2) :
    totalGDecl n l1 = totalGDecl n l2 := by
  unfold totalGDecl
  exact (h.map (gDeclCount n)).sum_eq

theorem totalFreq_perm {n : List Char} {l1 l2 : List PRGFile} (h : l1.Perm l2) :
    totalFreq n l1 = totalFreq n l2 := by
  unfold totalFreq
  exact (h.map (fun f => fileFreqOf f n)).sum_eq

theorem fileFreqOf_pos_of_decl {f : PRGFile} {b : Bool} {n : List Char}
    (h : (b, n) ∈ declsOfFile f) : 0 < fileFreqOf f n := by
  obtain ⟨c, hc, hpos⟩ := content_freq_pos_of_decl h
  unfold fileFreqOf
  rw [hc]
  exact hpos


/-! ### End-to-end characterization of a two-phase run -/

theorem scanRun_global (l1 l2 : List PRGFile) (n : List Char) :
    alookup n (scanRun l1 l2).globalFunctions =
      match firstGDeclFile n l1 with
      | none => none
      | some D => some ⟨n, D, false,
          (totalGDecl n l1 : Int)
            + (usageAdds ⟨n, D, false, (totalGDecl n l1 : Int)⟩ l2 : Int)⟩ := by
  unfold scanRun
  rw [alookup_runUsage_global, alookup_runDeclarations_global]
  cases hfd : firstGDeclFile n l1 with
  | none => rfl
  | some D => rfl

theorem scanRun_static (l1 l2 : List PRGFile) (p n : List Char) :
    slookup p n (scanRun l1 l2) =
      if ∃ f ∈ l1, f.path = p ∧ (true, n) ∈ declsOfFile f then
        some ⟨n, p, true, 1 + (sAddsAt p ⟨n, p, true, 1⟩ l2 : Int)⟩
      else none := by
  unfold scanRun
  rw [slookup_runUsage, slookup_runDeclarations]
  by_cases hex : ∃ f ∈ l1, f.path = p ∧ (true, n) ∈ declsOfFile f
  · rw [if_pos hex, if_pos hex]
    rfl
  · rw [if_neg hex, if_neg hex]
    rfl

theorem totalGDecl_ge_of_mem {n : List Char} {l : List PRGFile} {f : PRGFile}
    (hf : f ∈ l) : gDeclCount n f ≤ totalGDecl n l := by
  unfold totalGDecl
  exact List.single_le_sum (fun x _ => Nat.zero_le x) _ (List.mem_map.mpr ⟨f, hf, rfl⟩)

theorem path_unique {l : List PRGFile} (hnd : (l.map PRGFile.path).Nodup)
    {f g : PRGFile} (hf : f ∈ l) (hg : g ∈ l) (h : f.path = g.path) : f = g := by
  induction l with
  | nil => simp at hf
  | cons a rest ih =>
    rw [List.map_cons, List.nodup_cons] at hnd
    rcases List.mem_cons.mp hf with rfl | hf2
    · rcases List.mem_cons.mp hg with rfl | hg2
      · rfl
      · exact absurd (by rw [h]; exact List.mem_map.mpr ⟨g, hg2, rfl⟩) hnd.1
    · rcases List.mem_cons.mp hg with rfl | hg2
      · exact absurd (by rw [← h]; exact List.mem_map.mpr ⟨f, hf2, rfl⟩) hnd.1
      · exact ih hnd.2 hf2 hg2

/-! ### Membership in the unused-symbol lists -/

theorem mem_unusedGlobal_iff {st : SymbolTable}
    (hnd : (st.globalFunctions.map Prod.fst).Nodup) {x : List Char × List Char} :
    x ∈ (GetUnusedDeclarations st).1 ↔
      ∃ n d, alookup n st.globalFunctions = some d ∧ d.UsageCount ≤ 1 ∧
        x = (d.Name, d.File) := by
  unfold GetUnusedDeclarations
  simp only [List.mem_filterMap]
  constructor
  · rintro ⟨q, hq, hg⟩
    by_cases hle : q.2.UsageCount ≤ 1
    · rw [if_pos hle] at hg
      injection hg with hg
      exact ⟨q.1, q.2, alookup_eq_some_of_mem hnd hq, hle, hg.symm⟩
    · rw [if_neg hle] at hg
      exact absurd hg (by simp)
  · rintro ⟨n, d, hlk, hle, rfl⟩
    refine ⟨(n, d), mem_of_alookup_eq_some hlk, ?_⟩
    rw [if_pos hle]

theorem mem_unusedStatic_iff {st : SymbolTable}
    (hnd : (st.staticFunctions.map Prod.fst).Nodup)
    (hin : ∀ q ∈ st.staticFunctions, (q.2.map Prod.fst).Nodup)
    {x : List Char × List Char} :
    x ∈ (GetUnusedDeclarations st).2 ↔
      ∃ p n d, slookup p n st = some d ∧ d.UsageCount ≤ 1 ∧ x = (d.Name, p) := by
  unfold GetUnusedDeclarations
  simp only [List.mem_flatMap, List.mem_filterMap]
  constructor
  · rintro ⟨q, hq, w, hw, hg⟩
    by_cases hle : w.2.UsageCount ≤ 1
    · rw [if_pos hle] at hg
      injection hg with hg
      refine ⟨q.1, w.1, w.2, ?_, hle, hg.symm⟩
      unfold slookup
      rw [alookup_eq_some_of_mem hnd hq]
      simp only [Option.some_bind]
      exact alookup_eq_some_of_mem (hin q hq) hw
    · rw [if_neg hle] at hg
      exact absurd hg (by simp)
  · rintro ⟨p, n, d, hlk, hle, rfl⟩
    unfold slookup at hlk
    cases hb : alookup p st.staticFunctions with
    | none =>
      rw [hb] at hlk
      exact absurd hlk (by simp)
    | some bucket =>
      rw [hb] at hlk
      simp only [Option.some_bind] at hlk
      refine ⟨(p, bucket), mem_of_alookup_eq_some hb, (n, d),
        mem_of_alookup_eq_some hlk, ?_⟩
      rw [if_pos hle]

theorem mem_unusedGlobal_scanRun {base l1 l2 : List PRGFile}
    (hnd : (base.map PRGFile.path).Nodup) (h1 : l1.Perm base) (h2 : l2.Perm base)
    (x : List Char × List Char) :
    x ∈ (GetUnusedDeclarations (scanRun l1 l2)).1 ↔
      ∃ n f, f ∈ base ∧ 0 < gDeclCount n f ∧ totalGDecl n base = 1 ∧
        totalFreq n base = 1 ∧ x = (n, f.path) := by
  have hnd1 : (l1.map PRGFile.path).Nodup := ((h1.map PRGFile.path).nodup_iff).mpr hnd
  have hnd2 : (l2.map PRGFile.path).Nodup := ((h2.map PRGFile.path).nodup_iff).mpr hnd
  have hwf := WFTable_scanRun l1 l2
  rw [mem_unusedGlobal_iff hwf.1]
  have hperm12 : l2.Perm l1 := h2.trans h1.symm
  constructor
  · rintro ⟨n, d, hlk, hle, rfl⟩
    rw [scanRun_global] at hlk
    cases hfd : firstGDeclFile n l1 with
    | none =>
      rw [hfd] at hlk
      exact absurd hlk (by simp)
    | some D =>
      rw [hfd] at hlk
      simp only [Option.some.injEq] at hlk
      obtain ⟨f, hf, hfp, hfpos⟩ := firstGDeclFile_some hfd
      have hfreq : 0 < fileFreqOf f n :=
        fileFreqOf_pos_of_decl (gDeclCount_pos_iff.mp hfpos)
      have hex : ∃ g ∈ l2, g.path = D ∧ 0 < fileFreqOf g n :=
        ⟨f, hperm12.mem_iff.mpr hf, hfp, hfreq⟩
      have hadds := usageAdds_eq (b := false) (u := (totalGDecl n l1 : Int)) hnd2 hex
      rw [← hlk] at hle
      simp only at hle
      rw [hadds] at hle
      have htot1 : gDeclCount n f ≤ totalGDecl n l1 := totalGDecl_ge_of_mem hf
      have htot2 : fileFreqOf f n ≤ totalFreq n l2 :=
        totalFreq_ge_of_mem (hperm12.mem_iff.mpr hf)
      have htotb : totalGDecl n l1 = totalGDecl n base := totalGDecl_perm h1
      have hfreqb : totalFreq n l2 = totalFreq n base := totalFreq_perm h2
      refine ⟨n, f, h1.mem_iff.mp hf, hfpos, ?_, ?_, ?_⟩
      · omega
      · omega
      · rw [← hlk]
        simp only
        rw [hfp]
  · rintro ⟨n, f, hfb, hfpos, htot, hfreq, rfl⟩
    have hf1 : f ∈ l1 := h1.mem_iff.mpr hfb
    have htot1 : totalGDecl n l1 = 1 := by rw [totalGDecl_perm h1]; exact htot
    have hfd : ∃ D, firstGDeclFile n l1 = some D := by
      cases hfd : firstGDeclFile n l1 with
      | none =>
        have := (firstGDeclFile_none_iff n l1).mp hfd
        omega
      | some D => exact ⟨D, rfl⟩
    obtain ⟨D, hD⟩ := hfd
    obtain ⟨g, hg, hgp, hgpos⟩ := firstGDeclFile_some hD
    have hfg : f = g := by
      apply declFile_unique htot (h1.mem_iff.mp hf1) (h1.mem_iff.mp hg) hfpos hgpos
    have hfreqpos : 0 < fileFreqOf f n :=
      fileFreqOf_pos_of_decl (gDeclCount_pos_iff.mp hfpos)
    have hex : ∃ g2 ∈ l2, g2.path = D ∧ 0 < fileFreqOf g2 n :=
      ⟨f, h2.mem_iff.mpr hfb, by rw [hfg, hgp], hfreqpos⟩
    have hadds := usageAdds_eq (b := false) (u := (totalGDecl n l1 : Int)) hnd2 hex
    have hfreq2 : totalFreq n l2 = 1 := by rw [totalFreq_perm h2]; exact hfreq
    refine ⟨n, ⟨n, D, false,
      (totalGDecl n l1 : Int)
        + (usageAdds ⟨n, D, false, (totalGDecl n l1 : Int)⟩ l2 : Int)⟩, ?_, ?_, ?_⟩
    · rw [scanRun_global, hD]
    · simp only
      rw [hadds]
      omega
    · simp only
      rw [hfg, hgp]

theorem mem_unusedStatic_scanRun {base l1 l2 : List PRGFile}
    (hnd : (base.map PRGFile.path).Nodup) (h1 : l1.Perm base) (h2 : l2.Perm base)
    (x : List Char × List Char) :
    x ∈ (GetUnusedDeclarations (scanRun l1 l2)).2 ↔
      ∃ n f, f ∈ base ∧ (true, n) ∈ declsOfFile f ∧ fileFreqOf f n = 1 ∧
        x = (n, f.path) := by
  have hnd1 : (l1.map PRGFile.path).Nodup := ((h1.map PRGFile.path).nodup_iff).mpr hnd
  have hnd2 : (l2.map PRGFile.path).Nodup := ((h2.map PRGFile.path).nodup_iff).mpr hnd
  have hwf := WFTable_scanRun l1 l2
  have hperm12 : l2.Perm l1 := h2.trans h1.symm
  rw [mem_unusedStatic_iff hwf.2.2.1 (fun q hq => (hwf.2.2.2 q hq).1)]
  constructor
  · rintro ⟨p, n, d, hlk, hle, rfl⟩
    rw [scanRun_static] at hlk
    by_cases hex : ∃ f ∈ l1, f.path = p ∧ (true, n) ∈ declsOfFile f
    · rw [if_pos hex] at hlk
      simp only [Option.some.injEq] at hlk
      obtain ⟨f, hf, hfp, hfd⟩ := hex
      have hfreqpos : 0 < fileFreqOf f n := fileFreqOf_pos_of_decl hfd
      have hsingle : sAddsAt p (⟨n, p, true, 1⟩ : FunctionDeclaration) l2
          = sAdd f ⟨n, p, true, 1⟩ :=
        sAddsAt_eq_single hnd2 (hperm12.mem_iff.mpr hf) hfp
      rw [← hlk] at hle ⊢
      simp only at hle ⊢
      rw [hsingle, sAdd_eq] at hle
      refine ⟨n, f, h1.mem_iff.mp hf, hfd, by omega, by rw [hfp]⟩
    · rw [if_neg hex] at hlk
      exact absurd hlk (by simp)
  · rintro ⟨n, f, hfb, hfd, hfreq, rfl⟩
    have hf1 : f ∈ l1 := h1.mem_iff.mpr hfb
    have hex : ∃ g ∈ l1, g.path = f.path ∧ (true, n) ∈ declsOfFile g := ⟨f, hf1, rfl, hfd⟩
    have hsingle : sAddsAt f.path (⟨n, f.path, true, 1⟩ : FunctionDeclaration) l2
        = sAdd f ⟨n, f.path, true, 1⟩ :=
      sAddsAt_eq_single hnd2 (h2.mem_iff.mpr hfb) rfl
    refine ⟨f.path, n, ⟨n, f.path, true,
      1 + (sAddsAt f.path ⟨n, f.path, true, 1⟩ l2 : Int)⟩, ?_, ?_, rfl⟩
    · rw [scanRun_static, if_pos hex]
    · simp only
      rw [hsingle, sAdd_eq]
      omega


/-! ### Locator lemmas -/

mutual
theorem walkEntry_readable : ∀ (path : List Char) (t : FSTree), treeReadable t = true →
    ∃ l, walkEntry path t = .ok l ∧ l.map PRGFile.path = specPRGPaths path t
  | path, .file nm content, _ => by
    refine ⟨if hasPRGSuffix nm then [⟨path, content⟩] else [], rfl, ?_⟩
    by_cases hs : hasPRGSuffix nm
    · rw [if_pos hs]
      show [path] = specPRGPaths path (.file nm content)
      unfold specPRGPaths
      rw [if_pos hs]
    · rw [if_neg hs]
      show ([] : List (List Char)) = specPRGPaths path (.file nm content)
      unfold specPRGPaths
      rw [if_neg hs]
  | _, .dir _ none, h => absurd h (by unfold treeReadable; simp)
  | path, .dir _ (some es), h => walkChildren_readable path es h
theorem walkChildren_readable : ∀ (path : List Char) (es : FSList),
    childrenReadable es = true →
    ∃ l, walkChildren path es = .ok l ∧ l.map PRGFile.path = specPRGPathsChildren path es
  | _, .nil, _ => ⟨[], rfl, rfl⟩
  | path, .cons e rest, h => by
    have h2 : treeReadable e = true ∧ childrenReadable rest = true := by
      have h3 : (treeReadable e && childrenReadable rest) = true := h
      exact Bool.and_eq_true_iff.mp h3
    obtain ⟨l1, he1, hp1⟩ := walkEntry_readable (path ++ '/' :: FSTree.name e) e h2.1
    obtain ⟨l2, he2, hp2⟩ := walkChildren_readable path rest h2.2
    refine ⟨l1 ++ l2, ?_, ?_⟩
    · unfold walkChildren
      rw [he1, he2]
    · unfold specPRGPathsChildren
      rw [List.map_append, hp1, hp2]
end

mutual
theorem walkEntry_error : ∀ (path : List Char) (t : FSTree), treeReadable t = false →
    ∃ e, walkEntry path t = .error e
  | _, .file _ _, h => absurd h (by unfold treeReadable; simp)
  | path, .dir _ none, _ => ⟨path, rfl⟩
  | path, .dir _ (some es), h => walkChildren_error path es h
theorem walkChildren_error : ∀ (path : List Char) (es : FSList),
    childrenReadable es = false →
    ∃ e, walkChildren path es = .error e
  | _, .nil, h => absurd h (by unfold childrenReadable; simp)
  | path, .cons e rest, h => by
    cases hr : treeReadable e with
    | false =>
      obtain ⟨err, herr⟩ := walkEntry_error (path ++ '/' :: FSTree.name e) e hr
      refine ⟨err, ?_⟩
      unfold walkChildren
      rw [herr]
    | true =>
      have hcr : childrenReadable rest = false := by
        have h3 : (treeReadable e && childrenReadable rest) = false := h
        rw [hr] at h3
        simpa using h3
      obtain ⟨l1, he1, _⟩ := walkEntry_readable (path ++ '/' :: FSTree.name e) e hr
      obtain ⟨err, herr⟩ := walkChildren_error path rest hcr
      refine ⟨err, ?_⟩
      unfold walkChildren
      rw [he1, herr]
end

theorem SearchPRGFiles_readable (rootPath : List Char) (t : FSTree)
    (h : treeReadable t = true) :
    ∃ l, SearchPRGFiles rootPath (some t) = .ok l ∧
      l.map PRGFile.path = specPRGPaths rootPath t :=
  walkEntry_readable rootPath t h

theorem SearchPRGFiles_error (rootPath : List Char) (root : Option FSTree)
    (h : ∀ t, root = some t → treeReadable t = false) :
    ∃ e, SearchPRGFiles rootPath root = .error e := by
  cases root with
  | none => exact ⟨rootPath, rfl⟩
  | some t => exact walkEntry_error rootPath t (h t rfl)

theorem runScanner_error (rootPath : List Char) (root : Option FSTree) (e : List Char)
    (h : SearchPRGFiles rootPath root = .error e) :
    runScanner rootPath root = .error e := by
  unfold runScanner
  rw [h]

theorem runScanner_ok (rootPath : List Char) (root : Option FSTree) (files : List PRGFile)
    (h : SearchPRGFiles rootPath root = .ok files) :
    runScanner rootPath root =
      .ok (scan files, GetUnusedDeclarations (scan files),
        CalculateStatistics (scan files) 0) := by
  unfold runScanner
  rw [h]

/-! ### Unreadable files are skipped -/

theorem processFileForDeclarations_unreadable {f : PRGFile} (h : f.content = none)
    (st : SymbolTable) : processFileForDeclarations f st = st := by
  unfold processFileForDeclarations
  rw [h]

theorem processFileForUsage_unreadable {f : PRGFile} (h : f.content = none)
    (st : SymbolTable) : processFileForUsage f st = st := by
  unfold processFileForUsage
  rw [h]

theorem runDeclarations_skip (l1 l2 : List PRGFile) {f : PRGFile} (h : f.content = none) :
    runDeclarations (l1 ++ f :: l2) = runDeclarations (l1 ++ l2) := by
  unfold runDeclarations
  rw [List.foldl_append, List.foldl_append, List.foldl_cons,
    processFileForDeclarations_unreadable h]

theorem runUsage_skip (m1 m2 : List PRGFile) {f : PRGFile} (h : f.content = none)
    (st : SymbolTable) : runUsage (m1 ++ f :: m2) st = runUsage (m1 ++ m2) st := by
  unfold runUsage
  rw [List.foldl_append, List.foldl_append, List.foldl_cons,
    processFileForUsage_unreadable h]

theorem scanRun_skip (l1 l2 m1 m2 : List PRGFile) {f : PRGFile} (h : f.content = none) :
    scanRun (l1 ++ f :: l2) (m1 ++ f :: m2) = scanRun (l1 ++ l2) (m1 ++ m2) := by
  unfold scanRun
  rw [runDeclarations_skip l1 l2 h, runUsage_skip m1 m2 h]

/-! ### Usage counts after a full run, and their schedule independence -/

theorem scanRun_global_usage (l1 l2 : List PRGFile) (n : List Char)
    (hnd : (l1.map PRGFile.path).Nodup) (hperm : l2.Perm l1) :
    (alookup n (scanRun l1 l2).globalFunctions).map FunctionDeclaration.UsageCount =
      if 0 < totalGDecl n l1 then
        some ((totalGDecl n l1 : Int) + (totalFreq n l1 : Int) - 1)
      else none := by
  rw [scanRun_global]
  cases hfd : firstGDeclFile n l1 with
  | none =>
    have h0 := (firstGDeclFile_none_iff n l1).mp hfd
    rw [if_neg (by omega)]
    rfl
  | some D =>
    obtain ⟨f, hf, hfp, hfpos⟩ := firstGDeclFile_some hfd
    have hpos : 0 < totalGDecl n l1 := by
      by_contra h0
      have h1 : totalGDecl n l1 = 0 := by omega
      have h2 := (firstGDeclFile_none_iff n l1).mpr h1
      rw [hfd] at h2
      exact Option.noConfusion h2
    rw [if_pos hpos]
    have hnd2 : (l2.map PRGFile.path).Nodup := ((hperm.map PRGFile.path).nodup_iff).mpr hnd
    have hfreq : 0 < fileFreqOf f n := fileFreqOf_pos_of_decl (gDeclCount_pos_iff.mp hfpos)
    have hex : ∃ g ∈ l2, g.path = D ∧ 0 < fileFreqOf g n :=
      ⟨f, hperm.mem_iff.mpr hf, hfp, hfreq⟩
    have hadds := usageAdds_eq (b := false) (u := (totalGDecl n l1 : Int)) hnd2 hex
    simp only [Option.map_some']
    show some ((totalGDecl n l1 : Int)
        + (usageAdds ⟨n, D, false, (totalGDecl n l1 : Int)⟩ l2 : Int)) = _
    rw [hadds]
    have hfl2 : fileFreqOf f n ≤ totalFreq n l2 :=
      totalFreq_ge_of_mem (hperm.mem_iff.mpr hf)
    have hfreql : totalFreq n l2 = totalFreq n l1 := totalFreq_perm hperm
    rw [hfreql] at hfl2 ⊢
    have : (1 : Nat) ≤ totalFreq n l1 := by omega
    congr 1
    omega

theorem scan_single_decl {files : List PRGFile} {n : List Char} {f : PRGFile}
    (hnd : (files.map PRGFile.path).Nodup) (hf : f ∈ files)
    (hpos : 0 < gDeclCount n f) (htot : totalGDecl n files = 1)
    (hfreq : totalFreq n files = 1) :
    alookup n (scan files).globalFunctions = some ⟨n, f.path, false, 1⟩ := by
  unfold scan
  rw [scanRun_global]
  cases hfd : firstGDeclFile n files with
  | none =>
    have h0 := (firstGDeclFile_none_iff n files).mp hfd
    omega
  | some D =>
    obtain ⟨g, hg, hgp, hgpos⟩ := firstGDeclFile_some hfd
    have hfg : f = g := declFile_unique htot hf hg hpos hgpos
    have hfreqpos : 0 < fileFreqOf f n := fileFreqOf_pos_of_decl (gDeclCount_pos_iff.mp hpos)
    have hD : D = f.path := by rw [hfg, hgp]
    have hex : ∃ g2 ∈ files, g2.path = D ∧ 0 < fileFreqOf g2 n := ⟨f, hf, hD.symm, hfreqpos⟩
    have hadds := usageAdds_eq (b := false) (u := (totalGDecl n files : Int)) hnd hex
    show some (⟨n, D, false, (totalGDecl n files : Int)
        + (usageAdds ⟨n, D, false, (totalGDecl n files : Int)⟩ files : Int)⟩ : FunctionDeclaration)
      = some ⟨n, f.path, false, 1⟩
    rw [hadds, hD, htot, hfreq]
    norm_num

theorem glookup_usage_perm {base l1 l2 m1 m2 : List PRGFile}
    (hnd : (base.map PRGFile.path).Nodup)
    (h1 : l1.Perm base) (h2 : l2.Perm base) (h3 : m1.Perm base) (h4 : m2.Perm base)
    (n : List Char) :
    (alookup n (scanRun l1 l2).globalFunctions).map FunctionDeclaration.UsageCount =
      (alookup n (scanRun m1 m2).globalFunctions).map FunctionDeclaration.UsageCount := by
  have hnd1 : (l1.map PRGFile.path).Nodup := ((h1.map PRGFile.path).nodup_iff).mpr hnd
  have hnd3 : (m1.map PRGFile.path).Nodup := ((h3.map PRGFile.path).nodup_iff).mpr hnd
  rw [scanRun_global_usage l1 l2 n hnd1 (h2.trans h1.symm),
    scanRun_global_usage m1 m2 n hnd3 (h4.trans h3.symm),
    totalGDecl_perm h1, totalGDecl_perm h3, totalFreq_perm h1, totalFreq_perm h3]

theorem slookup_usage_perm {base l1 l2 m1 m2 : List PRGFile}
    (hnd : (base.map PRGFile.path).Nodup)
    (h1 : l1.Perm base) (h2 : l2.Perm base) (h3 : m1.Perm base) (h4 : m2.Perm base)
    (p n : List Char) :
    (slookup p n (scanRun l1 l2)).map FunctionDeclaration.UsageCount =
      (slookup p n (scanRun m1 m2)).map FunctionDeclaration.UsageCount := by
  rw [scanRun_static, scanRun_static]
  by_cases hex : ∃ f ∈ base, f.path = p ∧ (true, n) ∈ declsOfFile f
  · obtain ⟨f, hf, hfp, hfd⟩ := hex
    have hex1 : ∃ g ∈ l1, g.path = p ∧ (true, n) ∈ declsOfFile g :=
      ⟨f, h1.mem_iff.mpr hf, hfp, hfd⟩
    have hex3 : ∃ g ∈ m1, g.path = p ∧ (true, n) ∈ declsOfFile g :=
      ⟨f, h3.mem_iff.mpr hf, hfp, hfd⟩
    rw [if_pos hex1, if_pos hex3]
    have hnd2 : (l2.map PRGFile.path).Nodup := ((h2.map PRGFile.path).nodup_iff).mpr hnd
    have hnd4 : (m2.map PRGFile.path).Nodup := ((h4.map PRGFile.path).nodup_iff).mpr hnd
    have e2 : sAddsAt p (⟨n, p, true, 1⟩ : FunctionDeclaration) l2 = sAdd f ⟨n, p, true, 1⟩ :=
      sAddsAt_eq_single hnd2 (h2.mem_iff.mpr hf) hfp
    have e4 : sAddsAt p (⟨n, p, true, 1⟩ : FunctionDeclaration) m2 = sAdd f ⟨n, p, true, 1⟩ :=
      sAddsAt_eq_single hnd4 (h4.mem_iff.mpr hf) hfp
    rw [e2, e4]
  · have hex1 : ¬ ∃ g ∈ l1, g.path = p ∧ (true, n) ∈ declsOfFile g := by
      rintro ⟨g, hg, hrest⟩
      exact hex ⟨g, h1.mem_iff.mp hg, hrest⟩
    have hex3 : ¬ ∃ g ∈ m1, g.path = p ∧ (true, n) ∈ declsOfFile g := by
      rintro ⟨g, hg, hrest⟩
      exact hex ⟨g, h3.mem_iff.mp hg, hrest⟩
    rw [if_neg hex1, if_neg hex3]


/-! ### Lengths of the unused lists -/

theorem length_filterMap_le_one {β : Type} (g : List Char × FunctionDeclaration → β)
    (l : List (List Char × FunctionDeclaration)) :
    (l.filterMap (fun p => if p.2.UsageCount ≤ 1 then some (g p) else none)).length
      = (l.filter (fun p => p.2.UsageCount ≤ 1)).length := by
  induction l with
  | nil => rfl
  | cons a rest ih =>
    by_cases h : a.2.UsageCount ≤ 1
    · simp [List.filterMap_cons, List.filter_cons, h, ih]
    · simp [List.filterMap_cons, List.filter_cons, h, ih]

theorem unusedGlobal_length (st : SymbolTable) :
    (GetUnusedDeclarations st).1.length
      = (st.globalFunctions.filter (fun p => p.2.UsageCount ≤ 1)).length :=
  length_filterMap_le_one (fun p => (p.2.Name, p.2.File)) st.globalFunctions

theorem unusedStatic_length (st : SymbolTable) :
    (GetUnusedDeclarations st).2.length
      = (st.staticFunctions.map
          (fun fp => (fp.2.filter (fun p => p.2.UsageCount ≤ 1)).length)).sum := by
  show (st.staticFunctions.flatMap (fun fp =>
      fp.2.filterMap (fun p => if p.2.UsageCount ≤ 1 then some (p.2.Name, fp.1) else none))).length
    = _
  rw [List.length_flatMap]
  congr 1
  exact List.map_congr_left
    (fun fp _ => length_filterMap_le_one (fun p => (p.2.Name, fp.1)) fp.2)


/-! ### Claim theorems -/

/-- Claim C1: in the final symbol table of a scan, a `(name, file)` pair is
emitted as unused exactly when the stored declaration's final `UsageCount`
is at most 1; and a global symbol declared exactly once whose lower-cased
name occurs exactly once in the whole scanned tree (its own declaration
line) ends with `UsageCount` exactly 1 and is reported as unused. -/
theorem unused_iff_final_count_le_one (files : List PRGFile) (x : List Char × List Char) :
    (x ∈ (GetUnusedDeclarations (scan files)).1 ↔
      ∃ n d, alookup n (scan files).globalFunctions = some d ∧
        d.UsageCount ≤ 1 ∧ x = (d.Name, d.File)) ∧
    (x ∈ (GetUnusedDeclarations (scan files)).2 ↔
      ∃ p n d, slookup p n (scan files) = some d ∧ d.UsageCount ≤ 1 ∧ x = (d.Name, p)) ∧
    (∀ n f, (files.map PRGFile.path).Nodup → f ∈ files → 0 < gDeclCount n f →
      totalGDecl n files = 1 → totalFreq n files = 1 →
      alookup n (scan files).globalFunctions = some ⟨n, f.path, false, 1⟩ ∧
      (n, f.path) ∈ (GetUnusedDeclarations (scan files)).1) := by
  have hwf := WFTable_scanRun files files
  refine ⟨mem_unusedGlobal_iff hwf.1,
    mem_unusedStatic_iff hwf.2.2.1 (fun q hq => (hwf.2.2.2 q hq).1), ?_⟩
  intro n f hnd hf hpos htot hfreq
  have hlk := scan_single_decl hnd hf hpos htot hfreq
  refine ⟨hlk, ?_⟩
  exact (mem_unusedGlobal_iff hwf.1).mpr
    ⟨n, ⟨n, f.path, false, 1⟩, hlk, by norm_num, rfl⟩

/-- Claim C2: on the declaring file, exactly one occurrence of the name is
discounted before the remainder is added to the counter, the addition is
never negative, and a static procedure declared once and referenced twice
in its own file (three token occurrences of its name) ends with
`UsageCount` 3. -/
theorem usage_discounts_own_declaration (path content : List Char)
    (d : FunctionDeclaration) :
    (path = d.File → 0 < fileFreq content (lowerStr d.Name) →
      (updateGlobalUsage path content d).UsageCount
        = d.UsageCount + ((fileFreq content (lowerStr d.Name) : Int) - 1)) ∧
    (d.UsageCount ≤ (updateGlobalUsage path content d).UsageCount) ∧
    (0 < fileFreq content (lowerStr d.Name) →
      (updateStaticUsage content d).UsageCount
        = d.UsageCount + ((fileFreq content (lowerStr d.Name) : Int) - 1)) ∧
    (d.UsageCount ≤ (updateStaticUsage content d).UsageCount) ∧
    (∀ (files : List PRGFile) (f : PRGFile) (n : List Char),
      (files.map PRGFile.path).Nodup → f ∈ files → (true, n) ∈ declsOfFile f →
      fileFreqOf f n = 3 →
      slookup f.path n (scan files) = some ⟨n, f.path, true, 3⟩) := by
  refine ⟨?_, ?_, ?_, ?_, ?_⟩
  · intro hp hpos
    have hg : gAddC path content d = fileFreq content (lowerStr d.Name) - 1 := by
      show (if path = d.File ∧ 0 < fileFreq content (lowerStr d.Name)
          then fileFreq content (lowerStr d.Name) - 1
          else fileFreq content (lowerStr d.Name))
        = fileFreq content (lowerStr d.Name) - 1
      rw [if_pos ⟨hp, hpos⟩]
    rw [updateGlobalUsage_eq]
    show d.UsageCount + (gAddC path content d : Int)
      = d.UsageCount + ((fileFreq content (lowerStr d.Name) : Int) - 1)
    rw [hg]
    omega
  · rw [updateGlobalUsage_eq]
    show d.UsageCount ≤ d.UsageCount + (gAddC path content d : Int)
    omega
  · intro hpos
    have hg : sAddC content d = fileFreq content (lowerStr d.Name) - 1 := by
      show (if 0 < fileFreq content (lowerStr d.Name)
          then fileFreq content (lowerStr d.Name) - 1
          else fileFreq content (lowerStr d.Name))
        = fileFreq content (lowerStr d.Name) - 1
      rw [if_pos hpos]
    rw [updateStaticUsage_eq]
    show d.UsageCount + (sAddC content d : Int)
      = d.UsageCount + ((fileFreq content (lowerStr d.Name) : Int) - 1)
    rw [hg]
    omega
  · rw [updateStaticUsage_eq]
    show d.UsageCount ≤ d.UsageCount + (sAddC content d : Int)
    omega
  · intro files f n hnd hf hd hfreq
    unfold scan
    rw [scanRun_static]
    have hex : ∃ g ∈ files, g.path = f.path ∧ (true, n) ∈ declsOfFile g := ⟨f, hf, rfl, hd⟩
    rw [if_pos hex]
    have hsingle : sAddsAt f.path (⟨n, f.path, true, 1⟩ : FunctionDeclaration) files
        = sAdd f ⟨n, f.path, true, 1⟩ := sAddsAt_eq_single hnd hf rfl
    rw [hsingle, sAdd_eq, hfreq]
    norm_num

/-- Claim C3: a line yields a declaration exactly when, ignoring leading
whitespace, it starts with an optional case-insensitive `static` keyword
plus whitespace, then case-insensitive `function` or `procedure`, then
whitespace, then a name of ASCII letters, digits or underscores
(`DeclShape`); the match is unique per line, it is classified static
exactly when the `static` keyword is present, and a non-matching line
leaves the table untouched. -/
theorem declaration_matching_rule (line : List Char) (b : Bool) (nm : List Char) :
    (matchDecl line = some (b, nm) ↔ DeclShape line b nm) ∧
    (∀ b2 nm2, DeclShape line b nm → DeclShape line b2 nm2 → b2 = b ∧ nm2 = nm) ∧
    (∀ (file : List Char) (st : SymbolTable), matchDecl line = none →
      applyDeclLine file st line = st) := by
  refine ⟨matchDecl_iff_declShape line b nm, ?_, ?_⟩
  · intro b2 nm2 h1 h2
    have e1 := (matchDecl_iff_declShape line b nm).mpr h1
    have e2 := (matchDecl_iff_declShape line b2 nm2).mpr h2
    rw [e1] at e2
    injection e2 with e3
    injection e3 with hb hn
    exact ⟨hb.symm, hn.symm⟩
  · intro file st h
    unfold applyDeclLine
    rw [h]

/-- Claim C4 (corrected): the global table keeps exactly one entry per
exact name as written, and each additional declaration of that very same
spelling increments its `UsageCount` (the entry's count is the number of
global declaration lines of the name, its file the first declaring file);
but global identity is the exact case-sensitive byte string of the name,
not the case-insensitive identity of the declaring language — see the
counterexample. -/
theorem duplicate_global_declarations_increment (files : List PRGFile) (n : List Char) :
    ((runDeclarations files).globalFunctions.map Prod.fst).Nodup ∧
    alookup n (runDeclarations files).globalFunctions =
      (match firstGDeclFile n files with
        | none => none
        | some p => some ⟨n, p, false, (totalGDecl n files : Int)⟩) :=
  ⟨(WFTable_runDeclarations files).1, alookup_runDeclarations_global files n⟩

/-- Claim C4 counterexample: `Foo` and `FOO` are the same name of the
case-insensitive declaring language, yet declaring `function Foo` in one
file and `function FOO` in another yields two separate global entries with
count 1 each — the code keys globals by the exact byte string, so the
case-insensitive-identity reading of the claim is false. -/
theorem global_identity_case_sensitive_cex :
    lowerStr ((r"Foo").toList) = lowerStr ((r"FOO").toList) ∧
    (runDeclarations [fooA, fooB]).globalFunctions.length = 2 ∧
    alookup ((r"Foo").toList) (runDeclarations [fooA, fooB]).globalFunctions
      = some ⟨(r"Foo").toList, (r"a.prg").toList, false, 1⟩ ∧
    alookup ((r"FOO").toList) (runDeclarations [fooA, fooB]).globalFunctions
      = some ⟨(r"FOO").toList, (r"b.prg").toList, false, 1⟩ := by
  refine ⟨by decide, by decide, by decide, by decide⟩

/-- Claim C5: over a duplicate-free file set, running the two phases under
any worker schedules (any permutations of the set, independently for each
phase) yields the same final usage count for every global and static
declaration and the same unused-global and unused-static sets. -/
theorem schedule_independence {base l1 l2 m1 m2 : List PRGFile}
    (hnd : (base.map PRGFile.path).Nodup)
    (h1 : l1.Perm base) (h2 : l2.Perm base) (h3 : m1.Perm base) (h4 : m2.Perm base) :
    (∀ n, (alookup n (scanRun l1 l2).globalFunctions).map FunctionDeclaration.UsageCount
        = (alookup n (scanRun m1 m2).globalFunctions).map FunctionDeclaration.UsageCount) ∧
    (∀ p n, (slookup p n (scanRun l1 l2)).map FunctionDeclaration.UsageCount
        = (slookup p n (scanRun m1 m2)).map FunctionDeclaration.UsageCount) ∧
    (∀ x, x ∈ (GetUnusedDeclarations (scanRun l1 l2)).1 ↔
        x ∈ (GetUnusedDeclarations (scanRun m1 m2)).1) ∧
    (∀ x, x ∈ (GetUnusedDeclarations (scanRun l1 l2)).2 ↔
        x ∈ (GetUnusedDeclarations (scanRun m1 m2)).2) :=
  ⟨fun n => glookup_usage_perm hnd h1 h2 h3 h4 n,
    fun p n => slookup_usage_perm hnd h1 h2 h3 h4 p n,
    fun x => (mem_unusedGlobal_scanRun hnd h1 h2 x).trans
      (mem_unusedGlobal_scanRun hnd h3 h4 x).symm,
    fun x => (mem_unusedStatic_scanRun hnd h1 h2 x).trans
      (mem_unusedStatic_scanRun hnd h3 h4 x).symm⟩

/-- Witness for C5 at a concrete two-file set, with the declaration phase
run in swapped order on one side and the usage phase swapped on the
other. -/
theorem schedule_independence_witness :
    (alookup ((r"Alpha").toList) (scanRun [exB, exA] [exA, exB]).globalFunctions).map
        FunctionDeclaration.UsageCount
      = (alookup ((r"Alpha").toList) (scanRun [exA, exB] [exB, exA]).globalFunctions).map
        FunctionDeclaration.UsageCount :=
  (@schedule_independence [exA, exB] [exB, exA] [exA, exB] [exA, exB] [exB, exA]
    (by decide) (List.Perm.swap exA exB []) (List.Perm.refl [exA, exB])
    (List.Perm.refl [exA, exB]) (List.Perm.swap exA exB [])).1 ((r"Alpha").toList)

/-- Claim C6: the usage pass over one file leaves every static declaration
keyed under a different file untouched, and a whole usage phase over files
none of which is the owning file changes nothing under that key — statics
are tracked per file. -/
theorem static_usage_is_file_local (g : PRGFile) (st : SymbolTable) (p n : List Char) :
    (p ≠ g.path → slookup p n (processFileForUsage g st) = slookup p n st) ∧
    (∀ files : List PRGFile, (∀ f ∈ files, f.path ≠ p) →
      slookup p n (runUsage files st) = slookup p n st) := by
  constructor
  · intro hne
    rw [slookup_processFileForUsage, if_neg hne]
  · intro files hall
    rw [slookup_runUsage]
    cases hlk : slookup p n st with
    | none => rfl
    | some d =>
      simp only [Option.map_some']
      have hz : sAddsAt p d files = 0 := by
        unfold sAddsAt
        have hcongr : ∀ f ∈ files, (if f.path = p then sAdd f d else 0) = 0 := by
          intro f hf
          rw [if_neg (hall f hf)]
        calc (files.map fun f => if f.path = p then sAdd f d else 0).sum
            = (files.map fun _ => (0 : Nat)).sum := by rw [List.map_congr_left hcongr]
          _ = 0 := by simp
      rw [hz]
      obtain ⟨dn, df, ds, du⟩ := d
      simp

/-- Claim C7: the statistics aggregator reports the total number of global
declarations, the number of unused globals (those with final count at most
1, the length of the unused-global list), the symmetric static totals, the
elapsed duration unchanged, and for each category a percentage
`(total - unused) / total * 100` that is 0 whenever the total is 0. -/
theorem statistics_formula (st : SymbolTable) (t : Int) :
    (CalculateStatistics st t).TotalGlobal = st.globalFunctions.length ∧
    (CalculateStatistics st t).UnusedGlobal = (GetUnusedDeclarations st).1.length ∧
    (CalculateStatistics st t).TotalStatic
      = (st.staticFunctions.map (fun fp => fp.2.length)).sum ∧
    (CalculateStatistics st t).UnusedStatic = (GetUnusedDeclarations st).2.length ∧
    (CalculateStatistics st t).TotalProcessingTime = t ∧
    (0 < (CalculateStatistics st t).TotalGlobal →
      (CalculateStatistics st t).GlobalUsagePercentage
        = ((((CalculateStatistics st t).TotalGlobal : Int)
            - ((CalculateStatistics st t).UnusedGlobal : Int) : Int) : ℚ)
            / ((CalculateStatistics st t).TotalGlobal : ℚ) * 100) ∧
    ((CalculateStatistics st t).TotalGlobal = 0 →
      (CalculateStatistics st t).GlobalUsagePercentage = 0) ∧
    (0 < (CalculateStatistics st t).TotalStatic →
      (CalculateStatistics st t).StaticUsagePercentage
        = ((((CalculateStatistics st t).TotalStatic : Int)
            - ((CalculateStatistics st t).UnusedStatic : Int) : Int) : ℚ)
            / ((CalculateStatistics st t).TotalStatic : ℚ) * 100) ∧
    ((CalculateStatistics st t).TotalStatic = 0 →
      (CalculateStatistics st t).StaticUsagePercentage = 0) := by
  refine ⟨rfl, (unusedGlobal_length st).symm, rfl, (unusedStatic_length st).symm, rfl,
    ?_, ?_, ?_, ?_⟩
  · intro hpos
    have hp : 0 < st.globalFunctions.length := hpos
    show (if 0 < st.globalFunctions.length then
        (((st.globalFunctions.length : Int)
          - ((st.globalFunctions.filter (fun p => p.2.UsageCount ≤ 1)).length : Int) : Int) : ℚ)
          / (st.globalFunctions.length : ℚ) * 100
      else 0)
      = (((st.globalFunctions.length : Int)
          - ((st.globalFunctions.filter (fun p => p.2.UsageCount ≤ 1)).length : Int) : Int) : ℚ)
          / (st.globalFunctions.length : ℚ) * 100
    rw [if_pos hp]
  · intro h0
    have hz : st.globalFunctions.length = 0 := h0
    show (if 0 < st.globalFunctions.length then
        (((st.globalFunctions.length : Int)
          - ((st.globalFunctions.filter (fun p => p.2.UsageCount ≤ 1)).length : Int) : Int) : ℚ)
          / (st.globalFunctions.length : ℚ) * 100
      else 0) = 0
    rw [if_neg (by omega)]
  · intro hpos
    have hp : 0 < (st.staticFunctions.map (fun fp => fp.2.length)).sum := hpos
    show (if 0 < (st.staticFunctions.map (fun fp => fp.2.length)).sum then
        (((((st.staticFunctions.map (fun fp => fp.2.length)).sum : Nat) : Int)
          - (((st.staticFunctions.map
              (fun fp => (fp.2.filter (fun p => p.2.UsageCount ≤ 1)).length)).sum
                : Nat) : Int) : Int) : ℚ)
          / ((((st.staticFunctions.map (fun fp => fp.2.length)).sum : Nat) : Int) : ℚ) * 100
      else 0)
      = (((((st.staticFunctions.map (fun fp => fp.2.length)).sum : Nat) : Int)
          - (((st.staticFunctions.map
              (fun fp => (fp.2.filter (fun p => p.2.UsageCount ≤ 1)).length)).sum
                : Nat) : Int) : Int) : ℚ)
          / ((((st.staticFunctions.map (fun fp => fp.2.length)).sum : Nat) : Int) : ℚ) * 100
    rw [if_pos hp]
  · intro h0
    have hz : (st.staticFunctions.map (fun fp => fp.2.length)).sum = 0 := h0
    show (if 0 < (st.staticFunctions.map (fun fp => fp.2.length)).sum then
        (((((st.staticFunctions.map (fun fp => fp.2.length)).sum : Nat) : Int)
          - (((st.staticFunctions.map
              (fun fp => (fp.2.filter (fun p => p.2.UsageCount ≤ 1)).length)).sum
                : Nat) : Int) : Int) : ℚ)
          / ((((st.staticFunctions.map (fun fp => fp.2.length)).sum : Nat) : Int) : ℚ) * 100
      else 0) = 0
    rw [if_neg (by omega)]

/-- Claim C8: a token occurrence of a declared name written in any other
letter case, anywhere in a file's text, is seen by the usage matcher: the
whole content and the declared name are lower-cased before comparing, so
the frequency of the name is positive, and when the file is not the
declaring one the stored counter strictly increases. -/
theorem case_insensitive_usage (path pre tok post : List Char) (d : FunctionDeclaration)
    (hne : tok ≠ []) (hid : ∀ c ∈ tok, isIdentRune c = true)
    (hpre : pre = [] ∨ ∃ a s, pre = a ++ [s] ∧ isIdentRune s = false)
    (hpost : post = [] ∨ ∃ c b, post = c :: b ∧ isIdentRune c = false)
    (hlow : lowerStr tok = lowerStr d.Name) :
    0 < fileFreq (pre ++ tok ++ post) (lowerStr d.Name) ∧
    (path ≠ d.File →
      d.UsageCount < (updateGlobalUsage path (pre ++ tok ++ post) d).UsageCount) := by
  have hfreq : 0 < fileFreq (pre ++ tok ++ post) (lowerStr d.Name) := by
    unfold fileFreq countTok
    have hmem : lowerStr tok ∈ tokenize (lowerStr (pre ++ tok ++ post)) := by
      have hrw : lowerStr (pre ++ tok ++ post) = lowerStr pre ++ lowerStr tok ++ lowerStr post := by
        unfold lowerStr
        simp
      rw [hrw]
      refine token_mem_tokenize ?_ ?_ ?_ ?_
      · cases tok with
        | nil => exact absurd rfl hne
        | cons c cs => simp [lowerStr]
      · intro c hc
        obtain ⟨c0, hc0, rfl⟩ := List.mem_map.mp hc
        rw [isIdentRune_toLower]
        exact hid c0 hc0
      · rcases hpre with rfl | ⟨a, sep, rfl, hsep⟩
        · exact Or.inl (by simp [lowerStr])
        · refine Or.inr ⟨lowerStr a, Char.toLower sep, ?_, ?_⟩
          · simp [lowerStr]
          · rw [isIdentRune_toLower]
            exact hsep
      · rcases hpost with rfl | ⟨c0, b, rfl, hc0⟩
        · exact Or.inl (by simp [lowerStr])
        · refine Or.inr ⟨Char.toLower c0, lowerStr b, ?_, ?_⟩
          · simp [lowerStr]
          · rw [isIdentRune_toLower]
            exact hc0
    rw [← hlow]
    exact List.count_pos_iff.mpr hmem
  refine ⟨hfreq, ?_⟩
  intro hpath
  rw [updateGlobalUsage_eq]
  show d.UsageCount < d.UsageCount + (gAddC path (pre ++ tok ++ post) d : Int)
  have hg : gAddC path (pre ++ tok ++ post) d
      = fileFreq (pre ++ tok ++ post) (lowerStr d.Name) := by
    show (if path = d.File ∧ 0 < fileFreq (pre ++ tok ++ post) (lowerStr d.Name)
        then fileFreq (pre ++ tok ++ post) (lowerStr d.Name) - 1
        else fileFreq (pre ++ tok ++ post) (lowerStr d.Name))
      = fileFreq (pre ++ tok ++ post) (lowerStr d.Name)
    rw [if_neg (fun hc => hpath hc.1)]
  rw [hg]
  omega

/-- Witness for C8: the reference `MYPROC` in another file's text ` MYPROC()`
makes the counter of the declaration `MyProc` grow past its initial 1. -/
theorem case_insensitive_usage_witness :
    (1 : Int) < (updateGlobalUsage ['b'] ([' '] ++ ['M', 'Y', 'P', 'R', 'O', 'C'] ++ ['(', ')'])
      ⟨['M', 'y', 'P', 'r', 'o', 'c'], ['a'], false, 1⟩).UsageCount :=
  (case_insensitive_usage ['b'] [' '] ['M', 'Y', 'P', 'R', 'O', 'C'] ['(', ')']
    ⟨['M', 'y', 'P', 'r', 'o', 'c'], ['a'], false, 1⟩ (by decide) (by decide)
    (Or.inr ⟨[], ' ', rfl, by decide⟩) (Or.inr ⟨'(', [')'], rfl, by decide⟩)
    (by decide)).2 (by decide)

/-- Claim C9: on a fully readable tree the locator returns exactly the
paths of the non-directory entries whose name ends case-insensitively in
`.prg`, descending into every subdirectory; an inaccessible root or
unreadable directory yields a traversal error that aborts the whole run
before any phase; an individual unreadable file is merely skipped — both
phases run as if it were absent — and a successful traversal proceeds into
the scan. -/
theorem locator_and_error_handling (rootPath : List Char) (root : Option FSTree) :
    (∀ t, root = some t → treeReadable t = true →
      ∃ l, SearchPRGFiles rootPath root = .ok l ∧
        l.map PRGFile.path = specPRGPaths rootPath t) ∧
    ((root = none ∨ ∃ t, root = some t ∧ treeReadable t = false) →
      ∃ e, SearchPRGFiles rootPath root = .error e ∧ runScanner rootPath root = .error e) ∧
    (∀ (l1 l2 m1 m2 : List PRGFile) (f : PRGFile), f.content = none →
      scanRun (l1 ++ f :: l2) (m1 ++ f :: m2) = scanRun (l1 ++ l2) (m1 ++ m2)) ∧
    (∀ files, SearchPRGFiles rootPath root = .ok files →
      runScanner rootPath root =
        .ok (scan files, GetUnusedDeclarations (scan files),
          CalculateStatistics (scan files) 0)) := by
  refine ⟨?_, ?_, ?_, ?_⟩
  · rintro t rfl h
    exact SearchPRGFiles_readable rootPath t h
  · intro h
    have herr : ∃ e, SearchPRGFiles rootPath root = .error e := by
      apply SearchPRGFiles_error
      intro t ht
      rcases h with rfl | ⟨t2, ht2, hr⟩
      · exact Option.noConfusion ht
      · rw [ht2] at ht
        injection ht with ht3
        rw [← ht3]
        exact hr
    obtain ⟨e, he⟩ := herr
    exact ⟨e, he, runScanner_error rootPath root e he⟩
  · intro l1 l2 m1 m2 f hf
    exact scanRun_skip l1 l2 m1 m2 hf
  · intro files h
    exact runScanner_ok rootPath root files h

/-- Claim C10: every declaration a full run ever yields has usage count at
least 1, and one usage step never decreases any stored counter (globals and
statics alike) — the self-declaration discount only lowers the local
per-file count, never the stored counter. -/
theorem usage_count_at_least_one (l1 l2 : List PRGFile) (g : PRGFile) (st : SymbolTable)
    (p n : List Char) :
    (∀ d, alookup n (scanRun l1 l2).globalFunctions = some d → 1 ≤ d.UsageCount) ∧
    (∀ d, slookup p n (scanRun l1 l2) = some d → 1 ≤ d.UsageCount) ∧
    (∀ d, alookup n st.globalFunctions = some d →
      ∃ d2, alookup n (processFileForUsage g st).globalFunctions = some d2 ∧
        d.UsageCount ≤ d2.UsageCount) ∧
    (∀ d, slookup p n st = some d →
      ∃ d2, slookup p n (processFileForUsage g st) = some d2 ∧
        d.UsageCount ≤ d2.UsageCount) := by
  have hmin := MinCounts_scanRun l1 l2
  refine ⟨?_, ?_, ?_, ?_⟩
  · intro d hd
    exact hmin.1 (n, d) (mem_of_alookup_eq_some hd)
  · intro d hd
    unfold slookup at hd
    cases hb : alookup p (scanRun l1 l2).staticFunctions with
    | none =>
      rw [hb] at hd
      exact absurd hd (by simp)
    | some bucket =>
      rw [hb] at hd
      simp only [Option.some_bind] at hd
      exact (hmin.2 (p, bucket) (mem_of_alookup_eq_some hb)) (n, d)
        (mem_of_alookup_eq_some hd)
  · intro d hd
    rw [alookup_processFileForUsage_global, hd]
    refine ⟨_, rfl, ?_⟩
    show d.UsageCount ≤ d.UsageCount + (gAdd g d : Int)
    omega
  · intro d hd
    rw [slookup_processFileForUsage]
    by_cases hp : p = g.path
    · rw [if_pos hp, hd]
      refine ⟨_, rfl, ?_⟩
      show d.UsageCount ≤ d.UsageCount + (sAdd g d : Int)
      omega
    · rw [if_neg hp, hd]
      exact ⟨d, rfl, le_refl _⟩

end PRGScanner
